import Mathlib

/-!
The srclib Go toolchain: dependency listing and resolution
(`toolchain/golang/dep2.go`), and the language table (`scan/languages.go`).

A shallow embedding of `goVersion.resolveGoImportDep`, of the `Transform` of
`goVersion.BuildLister`, of `mustParseLanguages`, and of the library functions
they call, followed by theorems about them.

Conventions of the embedding.

* A Go `string` is a Lean `String`.  The import paths reaching the resolver are
  decoded from JSON and are therefore valid UTF-8; the byte-level functions used
  by the source (`strings.HasPrefix`, `strings.TrimSuffix`, `filepath.Clean`,
  `filepath.Rel`) only ever split at the ASCII characters `/` and `.`, so they
  are embedded over the list of characters of the string.
* A Go `(value, error)` result is an `Except String _`, the error being its
  message.
* The receiver `v *goVersion` is passed explicitly and the updated receiver is
  returned.  The calls of `gosrc.Get` made during one invocation are recorded in
  a list, so that "performs no external lookup" is a statement about that list.
* The embedding describes one sequential caller.  What it does to the lock
  `resolveCacheMu` is recorded separately, as a list of events in program
  order.
-/

namespace Golang

/-! ## Library functions: package `strings` -/

/-- Go `strings.HasPrefix(s, prefix)`:
`len(s) >= len(prefix) && s[0:len(prefix)] == prefix`. -/
def HasPrefix (s pre : String) : Bool :=
  decide (pre.data.length ≤ s.data.length ∧ s.data.take pre.data.length = pre.data)

/-- Go `strings.HasSuffix(s, suffix)`:
`len(s) >= len(suffix) && s[len(s)-len(suffix):] == suffix`. -/
def HasSuffix (s suf : String) : Bool :=
  decide (suf.data.length ≤ s.data.length ∧
    s.data.drop (s.data.length - suf.data.length) = suf.data)

/-- Go `strings.TrimSuffix(s, suffix)`: `s` without the trailing `suffix` when
`s` ends with it, `s` unchanged otherwise.  The suffix is removed once. -/
def TrimSuffix (s suf : String) : String :=
  if HasSuffix s suf then String.mk (s.data.take (s.data.length - suf.data.length)) else s

/-! ## Library functions: package `path/filepath` (Unix) -/

/-- The path separator test `os.IsPathSeparator` on Unix. -/
def isSep (ch : Char) : Bool := ch == '/'

/-- The inner loop of the `..` case of `filepath.Clean`, entered after `out.w--`:
`for out.w > dotdot && !os.IsPathSeparator(out.index(out.w)) { out.w-- }`.
The argument is the value of `out.w` on entry, the result its value on exit. -/
def backtrack (buf : List Char) (dotdot : Nat) : Nat → Nat
  | 0 => 0
  | w + 1 =>
    if dotdot < w + 1 ∧ isSep (buf.getD (w + 1) '/') = false then backtrack buf dotdot w
    else w + 1

/-- The main loop `for r < n { switch ... }` of `filepath.Clean`.  `out` is the
written part of the buffer (`out.w` is its length), `r` the read index and
`dotdot` the index where `..` must stop.  Every iteration advances `r`, so the
first argument (the number of iterations still allowed) is never exhausted
before `r` reaches `n` when it starts at `n - r`. -/
def cleanLoop (path : List Char) (rooted : Bool) : Nat → Nat → List Char → Nat → List Char
  | 0, _, out, _ => out
  | fuel + 1, r, out, dotdot =>
    let n := path.length
    if r < n then
      if isSep (path.getD r '/') then
        -- empty path element
        cleanLoop path rooted fuel (r + 1) out dotdot
      else if path.getD r '/' = '.' ∧ (r + 1 = n ∨ isSep (path.getD (r + 1) '/')) then
        -- . element
        cleanLoop path rooted fuel (r + 1) out dotdot
      else if path.getD r '/' = '.' ∧ path.getD (r + 1) '/' = '.' ∧
          (r + 2 = n ∨ isSep (path.getD (r + 2) '/')) then
        -- .. element: remove to last separator
        if dotdot < out.length then
          -- can backtrack
          cleanLoop path rooted fuel (r + 2) (out.take (backtrack out dotdot (out.length - 1))) dotdot
        else if rooted = false then
          -- cannot backtrack, but not rooted, so append .. element
          let out1 := (if 0 < out.length then out ++ ['/'] else out) ++ ['.', '.']
          cleanLoop path rooted fuel (r + 2) out1 out1.length
        else
          cleanLoop path rooted fuel (r + 2) out dotdot
      else
        -- real path element: add slash if needed, then copy the element
        let out1 :=
          if (rooted = true ∧ out.length ≠ 1) ∨ (rooted = false ∧ out.length ≠ 0) then out ++ ['/']
          else out
        let elem := (path.drop r).takeWhile (fun ch => !isSep ch)
        cleanLoop path rooted fuel (r + elem.length) (out1 ++ elem) dotdot
    else out

/-- Go `filepath.Clean` on Unix (no volume name), over the characters of the
path. -/
def cleanChars (path : List Char) : List Char :=
  if path = [] then ['.']
  else
    let rooted := isSep (path.getD 0 '.')
    let out := cleanLoop path rooted path.length (if rooted then 1 else 0)
      (if rooted then ['/'] else []) (if rooted then 1 else 0)
    -- Turn empty string into "."
    if out.length = 0 then ['.'] else out

/-- Go `filepath.Clean`. -/
def Clean (path : String) : String := String.mk (cleanChars path.data)

/-- The scans `for bi < bl && base[bi] != Separator { bi++ }` of `filepath.Rel`:
the index of the first separator of `s` at or after `i`, or `len(s)`. -/
def scanElem (s : List Char) (i : Nat) : Nat :=
  i + ((s.drop i).takeWhile (fun ch => !isSep ch)).length

deriving instance DecidableEq for Except

/-- The slice `s[i:j]`. -/
def slice (s : List Char) (i j : Nat) : List Char := (s.take j).drop i

/-- The loop of `filepath.Rel` that positions `base[b0:bi]` and `targ[t0:ti]` at
the first differing elements; the state is `(b0, bi, t0, ti)`.  The loop goes on
while either path has characters left: when one path is used up, the next
element of the other is compared with the empty element and the loop breaks
there, so that a leftover element `..` of the base is seen by the check that
follows the loop (`Rel("../..", "..")` is an error).  Every iteration that does
not break advances `bi` or `ti`, so `len(base) + len(targ)` iterations are
enough. -/
def relLoop (base targ : List Char) : Nat → Nat × Nat × Nat × Nat → Nat × Nat × Nat × Nat
  | 0, st => st
  | fuel + 1, (b0, bi, t0, ti) =>
    if bi < base.length ∨ ti < targ.length then
      let bi := scanElem base bi
      let ti := scanElem targ ti
      if slice targ t0 ti ≠ slice base b0 bi then (b0, bi, t0, ti)
      else
        let bi := if bi < base.length then bi + 1 else bi
        let ti := if ti < targ.length then ti + 1 else ti
        relLoop base targ fuel (bi, bi, ti, ti)
    else (b0, bi, t0, ti)

/-- The `..` elements written by `filepath.Rel` when base elements are left:
`..` followed by `seps` times `/..`. -/
def upDirs : Nat → List Char
  | 0 => ['.', '.']
  | seps + 1 => upDirs seps ++ ['/', '.', '.']

/-- Go `filepath.Rel(basepath, targpath)` on Unix, over characters.  The error
is the message of the Go error. -/
def relChars (basepath targpath : List Char) : Except String (List Char) :=
  let base := cleanChars basepath
  let targ := cleanChars targpath
  if targ = base then .ok ['.']
  else
    let base := if base = ['.'] then [] else base
    let baseSlashed := decide (0 < base.length) && isSep (base.getD 0 '.')
    let targSlashed := decide (0 < targ.length) && isSep (targ.getD 0 '.')
    if baseSlashed ≠ targSlashed then
      .error ("Rel: can't make " ++ String.mk targpath ++ " relative to " ++ String.mk basepath)
    else
      let bl := base.length
      let tl := targ.length
      match relLoop base targ (bl + tl + 1) (0, 0, 0, 0) with
      | (b0, bi, t0, _) =>
        if slice base b0 bi = ['.', '.'] then
          .error ("Rel: can't make " ++ String.mk targpath ++ " relative to " ++ String.mk basepath)
        else if b0 ≠ bl then
          -- Base elements left. Must go up before going down.
          let seps := (slice base b0 bl).count '/'
          .ok (upDirs seps ++ (if t0 ≠ tl then '/' :: targ.drop t0 else []))
        else .ok (targ.drop t0)

/-- Go `filepath.Rel`. -/
def Rel (basepath targpath : String) : Except String String :=
  (relChars basepath.data targpath.data).map String.mk

/-! ## Library functions: `fmt` verb `%q` (package `strconv`) -/

/-- The digit table `lowerhex` of package `strconv`. -/
def lowerhex (n : Nat) : Char := "0123456789abcdef".data.getD (n % 16) '0'

/-- Go `strconv.appendEscapedRune` for the double quote as quote character, as
used by `strconv.Quote`.  `IsPrint` is the Unicode table `strconv.IsPrint`. -/
def appendEscapedRune (IsPrint : Char → Bool) (r : Char) : List Char :=
  if r = Char.ofNat 34 ∨ r = Char.ofNat 92 then [Char.ofNat 92, r] -- always backslashed
  else if IsPrint r then [r]
  else if r = Char.ofNat 7 then [Char.ofNat 92, 'a']
  else if r = Char.ofNat 8 then [Char.ofNat 92, 'b']
  else if r = Char.ofNat 12 then [Char.ofNat 92, 'f']
  else if r = Char.ofNat 10 then [Char.ofNat 92, 'n']
  else if r = Char.ofNat 13 then [Char.ofNat 92, 'r']
  else if r = Char.ofNat 9 then [Char.ofNat 92, 't']
  else if r = Char.ofNat 11 then [Char.ofNat 92, 'v']
  else if r.toNat < 32 ∨ r.toNat = 127 then
    [Char.ofNat 92, 'x', lowerhex (r.toNat / 16), lowerhex r.toNat]
  else if r.toNat < 65536 then
    [Char.ofNat 92, 'u', lowerhex (r.toNat / 4096), lowerhex (r.toNat / 256),
      lowerhex (r.toNat / 16), lowerhex r.toNat]
  else
    [Char.ofNat 92, 'U', lowerhex (r.toNat / 268435456), lowerhex (r.toNat / 16777216),
      lowerhex (r.toNat / 1048576), lowerhex (r.toNat / 65536), lowerhex (r.toNat / 4096),
      lowerhex (r.toNat / 256), lowerhex (r.toNat / 16), lowerhex r.toNat]

/-- Go `strconv.Quote(s)`, which is what the verb `%q` prints for a string: the
escaped runes of `s` between double quotes. -/
def Quote (IsPrint : Char → Bool) (s : String) : String :=
  String.mk (Char.ofNat 34 :: (s.data.flatMap (appendEscapedRune IsPrint)) ++ [Char.ofNat 34])

/-! ## Data model -/

/-- The Go struct `dep2.ResolvedTarget`, with the four fields that the resolver
sets.  A field the source leaves out of a composite literal is the empty
string. -/
structure ResolvedTarget where
  ToRepoCloneURL : String
  ToUnitID : String
  ToVersionString : String
  ToRevSpec : String
deriving DecidableEq, Repr

/-- The Go struct `Package` of the Go toolchain: the source unit of a Go
package, with the two fields the resolver sets. -/
structure Package where
  Dir : String
  ImportPath : String
deriving DecidableEq, Repr

/-- The fields of `gosrc.Directory` that the resolver reads. -/
structure Directory where
  ImportPath : String
  ProjectRoot : String
  ProjectURL : String
deriving DecidableEq, Repr

/-- The Go configuration of a repository, as returned by `v.goConfig(c)`. -/
structure Config where
  BaseImportPath : String
deriving DecidableEq, Repr

/-- The repository configuration `config.Repository`: its `URI`, and the Go
section from which `goConfig` is read. -/
structure Repository where
  URI : String
  Go : Config
deriving DecidableEq, Repr

/-- Modelled from the spec: the method `goVersion.goConfig` is defined in a file
of the package that is not among the sources.  The spec speaks of "the
repository's own base namespace"; it is read from the repository
configuration. -/
def goConfig (c : Repository) : Config := c.Go

/-- The resolution cache `resolveCache map[string]*dep2.ResolvedTarget`.  A key
that is absent, like a `nil` map, reads as `nil`, here `none`. -/
abbrev Cache := String → Option ResolvedTarget

/-- The map assignment `m[k] = t`. -/
def Cache.set (m : Cache) (k : String) (t : ResolvedTarget) : Cache :=
  fun q => if q = k then some t else m q

/-- The empty (or `nil`) map. -/
def Cache.empty : Cache := fun _ => none

/-- The receiver `goVersion`: the toolchain version and its resolution cache. -/
structure goVersion where
  VersionString : String
  VCSRevision : String
  resolveCache : Cache

/-- The collaborators of the resolver that live outside the sources:
`unit.MakeID`, the predicate `gosrc.IsGoRepoPath`, and the table
`strconv.IsPrint` behind the verb `%q`. -/
structure Env where
  MakeID : Package → String
  IsGoRepoPath : String → Bool
  IsPrint : Char → Bool

/-- The package index `gosrc.Get(client, importPath, "")`: either a directory
or an error. -/
abbrev Index := String → Except String Directory

/-- What one call of `resolveGoImportDep` does: the pair `(target, error)` it
returns, the receiver afterwards, and the import paths it passed to
`gosrc.Get`, in order. -/
structure Outcome where
  result : Except String ResolvedTarget
  after : goVersion
  lookups : List String

/-- The error of line 101:
`fmt.Errorf("unable to fetch information about Go package %q", importPath)`. -/
def fetchError (env : Env) (importPath : String) : String :=
  "unable to fetch information about Go package " ++ Quote env.IsPrint importPath

/-- The method `goVersion.resolveGoImportDep` (lines 73-132). -/
def resolveGoImportDep (env : Env) (Get : Index) (v : goVersion) (importPath : String)
    (c : Repository) : Outcome :=
  -- Look up in cache.
  match v.resolveCache importPath with
  | some resolvedTarget => ⟨.ok resolvedTarget, v, []⟩
  | none =>
    -- Check if this importPath is in this repository.
    if HasPrefix importPath (goConfig c).BaseImportPath then
      match Rel (goConfig c).BaseImportPath importPath with
      | .error err => ⟨.error err, v, []⟩
      | .ok dir =>
        let toUnit : Package := { Dir := dir, ImportPath := importPath }
        ⟨.ok { ToRepoCloneURL := c.URI, ToUnitID := env.MakeID toUnit,
               ToVersionString := "", ToRevSpec := "" }, v, []⟩
    else
      match Get importPath with
      | .error _ => ⟨.error (fetchError env importPath), v, [importPath]⟩
      | .ok dir =>
        -- gosrc returns code.google.com URLs ending in a slash. Remove it.
        let projectURL := TrimSuffix dir.ProjectURL "/"
        match Rel dir.ProjectRoot dir.ImportPath with
        | .error err => ⟨.error err, v, [importPath]⟩
        | .ok rel =>
          let toUnit : Package := { Dir := rel, ImportPath := dir.ImportPath }
          let resolvedTarget : ResolvedTarget :=
            { ToRepoCloneURL := projectURL, ToUnitID := env.MakeID toUnit,
              ToVersionString := "", ToRevSpec := "" }
          let resolvedTarget : ResolvedTarget :=
            if env.IsGoRepoPath dir.ImportPath then
              { resolvedTarget with ToVersionString := v.VersionString, ToRevSpec := v.VCSRevision }
            else resolvedTarget
          -- Save in cache.
          ⟨.ok resolvedTarget,
            { v with resolveCache := v.resolveCache.set importPath resolvedTarget }, [importPath]⟩

/-- One call of the resolver in a run: its import path, its repository
configuration, and what the package index answers during that call. -/
structure Call where
  (importPath : String)
  (c : Repository)
  (Get : Index)

/-- The receiver after a sequence of sequential calls of `resolveGoImportDep`. -/
def runCalls (env : Env) (v : goVersion) : List Call → goVersion
  | [] => v
  | k :: ks => runCalls env (resolveGoImportDep env k.Get v k.importPath k.c).after ks

/-- Modelled from the spec: `unit.MakeID` is defined in package `unit`, which is
not among the sources.  The spec's two scenarios give the identifier of a Go
package from its location relative to the base namespace: `unitID: "internal"`
for the package at `internal`, and `unitID: ""` for the package at the root of
its project, whose relative location `filepath.Rel` writes `.`. -/
def specMakeID (u : Package) : String := if u.Dir = "." then "" else u.Dir

/-- The collaborators with the identifier of the spec and a package index table
that knows no standard-distribution path and treats every rune as printable. -/
def specEnv : Env := { MakeID := specMakeID, IsGoRepoPath := fun _ => false, IsPrint := fun _ => true }

/-- The target built by the external branch from the answer `dir` of the package
index and the relative location `rel` of the package in its project. -/
def externalTarget (env : Env) (v : goVersion) (dir : Directory) (rel : String) : ResolvedTarget :=
  if env.IsGoRepoPath dir.ImportPath then
    { ToRepoCloneURL := TrimSuffix dir.ProjectURL "/",
      ToUnitID := env.MakeID { Dir := rel, ImportPath := dir.ImportPath },
      ToVersionString := v.VersionString, ToRevSpec := v.VCSRevision }
  else
    { ToRepoCloneURL := TrimSuffix dir.ProjectURL "/",
      ToUnitID := env.MakeID { Dir := rel, ImportPath := dir.ImportPath },
      ToVersionString := "", ToRevSpec := "" }

/-! ## Library functions: package `encoding/json`, decoding into `[]string` -/

/-- JSON white space, as in `isSpace` of the scanner of `encoding/json`. -/
def isJSONSpace (c : Char) : Bool :=
  c == ' ' || c == Char.ofNat 9 || c == Char.ofNat 13 || c == Char.ofNat 10

/-- The value of a hexadecimal digit, of either case. -/
def hexVal (c : Char) : Option Nat :=
  if 48 ≤ c.toNat ∧ c.toNat ≤ 57 then some (c.toNat - 48)
  else if 97 ≤ c.toNat ∧ c.toNat ≤ 102 then some (c.toNat - 87)
  else if 65 ≤ c.toNat ∧ c.toNat ≤ 70 then some (c.toNat - 55)
  else none

/-- The function `getu4` of `encoding/json` on the four characters that follow
`\u`: their value as a hexadecimal number, if they are hexadecimal digits. -/
def getu4 (a b c d : Char) : Option Nat :=
  match hexVal a, hexVal b, hexVal c, hexVal d with
  | some x, some y, some z, some w => some (((x * 16 + y) * 16 + z) * 16 + w)
  | _, _, _, _ => none

/-- Go `utf16.IsSurrogate`. -/
def isSurrogate (r : Nat) : Bool := decide (55296 ≤ r ∧ r < 57344)

/-- Go `utf16.DecodeRune(r1, r2)` when the pair is valid; `none` stands for the
replacement character that it returns otherwise. -/
def decodeSurrogates (r1 r2 : Nat) : Option Nat :=
  if 55296 ≤ r1 ∧ r1 < 56320 ∧ 56320 ≤ r2 ∧ r2 < 57344 then
    some ((r1 - 55296) * 1024 + (r2 - 56320) + 65536)
  else none

/-- The second half of a surrogate pair: the rune that `utf16.DecodeRune` makes
of the surrogate `r1` and of the `\u` escape at the head of `cs`, if there is
one and the pair is valid. -/
def secondHalf (r1 : Nat) (cs : List Char) : Option Nat :=
  match cs with
  | bs :: u :: a :: b :: c :: d :: _ =>
    if bs = Char.ofNat 92 ∧ u = 'u' then (getu4 a b c d).bind (decodeSurrogates r1) else none
  | _ => none

/-- The Unicode replacement character U+FFFD. -/
def replacementChar : Char := Char.ofNat 65533

/-- Where the decoder stands in a JSON array of strings. -/
inductive ScanState where
  /-- after `[`: an element or `]` -/
  | beginValueOrEnd
  /-- after `,`: an element -/
  | beginValue
  /-- inside a string literal, with the characters decoded so far -/
  | inString (acc : List Char)
  /-- inside a string literal, on the `n` characters of the second half of a
  surrogate pair that has been decoded already -/
  | inPair (n : Nat) (acc : List Char)
  /-- after an element: `,` or `]` -/
  | endValue
  /-- after `]`: white space only -/
  | endTop

/-- The behaviour of `json.Unmarshal` with a target of type `[]string` on the
text after the opening `[`, read character by character as the scanner of
`encoding/json` does.  An element is a string literal, unquoted as the function
`unquote` does it (escapes, `\u` escapes with surrogate pairs), or `null`, which
leaves the element at its zero value `""`.  `none` stands for every error of
`json.Unmarshal`: a syntax error, or the type error of an element that is
neither a string nor `null`. -/
def decodeLoop : ScanState → List String → List Char → Option (List String)
  | .endTop, done, [] => some done
  | _, _, [] => none
  | .endTop, done, c :: rest => if isJSONSpace c then decodeLoop .endTop done rest else none
  | .endValue, done, c :: rest =>
    if isJSONSpace c then decodeLoop .endValue done rest
    else if c = ',' then decodeLoop .beginValue done rest
    else if c = ']' then decodeLoop .endTop done rest
    else none
  | .beginValueOrEnd, done, c :: rest =>
    if isJSONSpace c then decodeLoop .beginValueOrEnd done rest
    else if c = ']' then decodeLoop .endTop done rest
    else if c = Char.ofNat 34 then decodeLoop (.inString []) done rest
    else if c = 'n' then
      match rest with
      | u :: l1 :: l2 :: rest1 =>
        if u = 'u' ∧ l1 = 'l' ∧ l2 = 'l' then decodeLoop .endValue (done ++ [""]) rest1 else none
      | _ => none
    else none
  | .beginValue, done, c :: rest =>
    if isJSONSpace c then decodeLoop .beginValue done rest
    else if c = Char.ofNat 34 then decodeLoop (.inString []) done rest
    else if c = 'n' then
      match rest with
      | u :: l1 :: l2 :: rest1 =>
        if u = 'u' ∧ l1 = 'l' ∧ l2 = 'l' then decodeLoop .endValue (done ++ [""]) rest1 else none
      | _ => none
    else none
  | .inString acc, done, c :: rest =>
    if c = Char.ofNat 34 then decodeLoop .endValue (done ++ [String.mk acc]) rest
    else if c = Char.ofNat 92 then
      match rest with
      | e :: rest1 =>
        if e = Char.ofNat 34 ∨ e = Char.ofNat 92 ∨ e = '/' then
          decodeLoop (.inString (acc ++ [e])) done rest1
        else if e = 'b' then decodeLoop (.inString (acc ++ [Char.ofNat 8])) done rest1
        else if e = 'f' then decodeLoop (.inString (acc ++ [Char.ofNat 12])) done rest1
        else if e = 'n' then decodeLoop (.inString (acc ++ [Char.ofNat 10])) done rest1
        else if e = 'r' then decodeLoop (.inString (acc ++ [Char.ofNat 13])) done rest1
        else if e = 't' then decodeLoop (.inString (acc ++ [Char.ofNat 9])) done rest1
        else if e = 'u' then
          match rest1 with
          | a :: b :: c1 :: d :: rest2 =>
            match getu4 a b c1 d with
            | none => none
            | some rr =>
              if isSurrogate rr then
                match secondHalf rr rest2 with
                | some dec =>
                  -- a valid pair: consume the second escape
                  decodeLoop (.inPair 6 (acc ++ [Char.ofNat dec])) done rest2
                | none =>
                  -- invalid surrogate: fall back to the replacement rune
                  decodeLoop (.inString (acc ++ [replacementChar])) done rest2
              else decodeLoop (.inString (acc ++ [Char.ofNat rr])) done rest2
          | _ => none
        else none
      | [] => none
    else if c.toNat < 32 then none
    else decodeLoop (.inString (acc ++ [c])) done rest
  | .inPair n acc, done, _ :: rest =>
    if n ≤ 1 then decodeLoop (.inString acc) done rest
    else decodeLoop (.inPair (n - 1) acc) done rest

/-- The behaviour of `json.Unmarshal` with a target of type `[]string` from the
start of the text: white space, then an array, or `null`, which leaves the
slice empty.  Any other value is an error. -/
def decodeTop : List Char → Option (List String)
  | [] => none
  | c :: rest =>
    if isJSONSpace c then decodeTop rest
    else if c = '[' then decodeLoop .beginValueOrEnd [] rest
    else if c = 'n' then
      match rest with
      | u :: l1 :: l2 :: rest1 =>
        if u = 'u' ∧ l1 = 'l' ∧ l2 = 'l' ∧ rest1.all isJSONSpace = true then some [] else none
      | _ => none
    else none

/-- Go `json.Unmarshal(orig, &importPaths)` with `importPaths` a `[]string`.
The text of the error is not modelled. -/
def Unmarshal (orig : String) : Except String (List String) :=
  match decodeTop orig.data with
  | some importPaths => .ok importPaths
  | none => .error "json: cannot unmarshal into Go value of type []string"

/-- The minimal escaping of a character in a JSON string literal: the double
quote and the backslash are backslashed, a control character is written as a
`\u` escape, every other character stands for itself. -/
def escapeChar (c : Char) : List Char :=
  if c = Char.ofNat 34 ∨ c = Char.ofNat 92 then [Char.ofNat 92, c]
  else if c.toNat < 32 then [Char.ofNat 92, 'u', '0', '0', lowerhex (c.toNat / 16), lowerhex c.toNat]
  else [c]

/-- A string as a JSON string literal. -/
def quoteJSON (s : String) : List Char :=
  Char.ofNat 34 :: (s.data.flatMap escapeChar ++ [Char.ofNat 34])

/-- The elements of a JSON array of strings, separated by commas. -/
def encodeElems : List String → List Char
  | [] => []
  | [a] => quoteJSON a
  | a :: b :: rest => quoteJSON a ++ ',' :: encodeElems (b :: rest)

/-- The JSON array encoding of a list of strings. -/
def jsonArray (l : List String) : String := String.mk ('[' :: (encodeElems l ++ [']']))

/-! ## The lister: `BuildLister` and its `Transform` -/

/-- The Go struct `dep2.RawDependency`: the target-type tag and the target, which
the lister sets to an import path. -/
structure RawDependency where
  TargetType : String
  Target : String
deriving DecidableEq, Repr

/-- The constant `goImportPathTargetType`. -/
def goImportPathTargetType : String := "go-import-path"

/-- The function `Transform` of the command built by `BuildLister` (lines
41-57).  `Marshal` is `json.Marshal` on a slice of `RawDependency`: it depends
on the declaration of that struct, which is not among the sources, and it does
not fail on values whose fields hold strings. -/
def Transform (Marshal : List RawDependency → String) (orig : String) : Except String String :=
  match Unmarshal orig with
  | .error err => .error err
  | .ok importPaths =>
    let deps : List RawDependency := importPaths.map fun importPath =>
      { TargetType := goImportPathTargetType, Target := importPath }
    .ok (Marshal deps)

/-- Go `strings.Join(a, sep)`. -/
def Join : List String → String → String
  | [], _ => ""
  | [a], _ => a
  | a :: b :: rest, sep => a ++ sep ++ Join (b :: rest) sep

/-- What the template of the command of `BuildLister`,
`[{{if .Imports}}"{{join .Imports "\",\""}}"{{end}}]`, prints for a package whose
`Imports` are `imports`. -/
def listTemplate (imports : List String) : String :=
  "[" ++ (if imports ≠ [] then "\"" ++ Join imports "\",\"" ++ "\"" else "") ++ "]"

/-- A call that registers an implementation with package `dep2`:
`dep2.RegisterLister(unit, lister)`, recorded with the source unit whose kind
gets the lister, or `dep2.RegisterResolver(targetType, resolver)`, recorded with
the target type that gets the resolver. -/
inductive Registration where
  | lister (unit : Package)
  | resolver (targetType : String)
deriving DecidableEq, Repr

/-- The function `init` of the package (lines 19-22): the registrations it
makes, in order.  The lister is `dep2.DockerLister{defaultGoVersion}` and the
resolver is `defaultGoVersion`. -/
def init : List Registration :=
  [.lister { Dir := "", ImportPath := "" }, .resolver goImportPathTargetType]

/-- A stand-in for `json.Marshal` in the concrete instances: the targets, one per
line.  -/
def sampleMarshal (deps : List RawDependency) : String :=
  String.join (deps.map fun d => d.TargetType ++ " " ++ d.Target ++ "\n")

/-! ## The lock of the resolution cache -/

/-- What one caller of `resolveGoImportDep` does to the lock `resolveCacheMu`, to
the cache and to the package index, in program order. -/
inductive Event where
  /-- `v.resolveCacheMu.Lock()` -/
  | lock
  /-- `v.resolveCacheMu.Unlock()`, run by a `defer` -/
  | unlock
  /-- the read `v.resolveCache[importPath]` -/
  | cacheRead (key : String)
  /-- the assignment `v.resolveCache[importPath] = resolvedTarget` -/
  | cacheWrite (key : String)
  /-- the call `gosrc.Get(client, importPath, "")` -/
  | get (key : String)
deriving DecidableEq, Repr

/-- The events of one call of `resolveGoImportDep`, statement by statement.  The
lookup of lines 75-79 is a function literal that is called at once: its
deferred `Unlock` runs when the literal returns, before line 80.  The deferred
`Unlock` of line 125 runs when `resolveGoImportDep` returns. -/
def resolveEvents (Get : Index) (v : goVersion) (importPath : String) (c : Repository) :
    List Event :=
  -- Look up in cache.
  [.lock, .cacheRead importPath, .unlock] ++
  match v.resolveCache importPath with
  | some _ => []
  | none =>
    if HasPrefix importPath (goConfig c).BaseImportPath then []
    else
      .get importPath ::
      match Get importPath with
      | .error _ => []
      | .ok dir =>
        match Rel dir.ProjectRoot dir.ImportPath with
        | .error _ => []
        | .ok _ =>
          -- Save in cache.
          [.lock, .cacheWrite importPath, .unlock]

/-- Whether the caller holds the lock after the events `es`, when `held` says
whether it held it before. -/
def heldAfter : Bool → List Event → Bool
  | held, [] => held
  | _, .lock :: es => heldAfter true es
  | _, .unlock :: es => heldAfter false es
  | held, _ :: es => heldAfter held es

/-- The import paths passed to the package index in a list of events. -/
def getsOf : List Event → List String
  | [] => []
  | .get key :: es => key :: getsOf es
  | _ :: es => getsOf es

/-- The discipline of the lock on a list of events, from the state `held`: the
lock is taken only when free and released only when held, the cache is read and
written only under the lock, the package index is called only without it, and
the lock is free at the end. -/
def lockDiscipline : Bool → List Event → Bool
  | held, [] => !held
  | held, .lock :: es => !held && lockDiscipline true es
  | held, .unlock :: es => held && lockDiscipline false es
  | held, .cacheRead _ :: es => held && lockDiscipline held es
  | held, .cacheWrite _ :: es => held && lockDiscipline held es
  | held, .get _ :: es => !held && lockDiscipline held es

/-! ## Sample data used by the concrete instances -/

/-- A resolver for Go 1.2 with an empty cache. -/
def go12 : goVersion := { VersionString := "1.2", VCSRevision := "go1.2", resolveCache := Cache.empty }

/-- A package index that knows no package. -/
def noIndex : Index := fun _ => .error "not found"

/-- The stubbed package index of the external scenario: it knows
`example.org/lib`, whose project root is `example.org/lib` and whose project URL
ends in a slash. -/
def stubIndex : Index := fun p =>
  if p = "example.org/lib" then
    .ok { ImportPath := "example.org/lib", ProjectRoot := "example.org/lib",
          ProjectURL := "https://example.org/lib/" }
  else .error "not found"

/-- The package index of the stub, with a project URL that ends in two
slashes. -/
def doubleSlashIndex : Index := fun p =>
  if p = "example.org/lib" then
    .ok { ImportPath := "example.org/lib", ProjectRoot := "example.org/lib",
          ProjectURL := "https://example.org/lib//" }
  else .error "not found"

/-- Collaborators for which `net/http` is a path of the Go standard
distribution. -/
def stdEnv : Env :=
  { MakeID := specMakeID, IsGoRepoPath := fun p => p == "net/http", IsPrint := fun _ => true }

/-- A package index that knows `net/http`, in the project `code.google.com/p/go`. -/
def stdIndex : Index := fun p =>
  if p = "net/http" then
    .ok { ImportPath := "net/http", ProjectRoot := "", ProjectURL := "https://code.google.com/p/go" }
  else .error "not found"

/-- A repository whose base import path is `net`. -/
def netRepo : Repository := { URI := "example.com/go", Go := { BaseImportPath := "net" } }

/-- A repository whose base import path is `app/util`. -/
def appUtil : Repository := { URI := "example.com/app/util", Go := { BaseImportPath := "app/util" } }

/-- A repository whose base import path is `example.org/lib`. -/
def libRepo : Repository := { URI := "example.org/lib", Go := { BaseImportPath := "example.org/lib" } }

/-- A package index that knows `example.org/lib/sub`, a package of the project
rooted at `example.org/lib`. -/
def subIndex : Index := fun p =>
  if p = "example.org/lib/sub" then
    .ok { ImportPath := "example.org/lib/sub", ProjectRoot := "example.org/lib",
          ProjectURL := "https://example.org/lib" }
  else .error "not found"

end Golang

namespace Scan

/-! ## Package `scan`: the language table (`scan/languages.go`) -/

/-- The Go struct `Language`.  The field `Type` of the source is `Kind` here,
`Type` being reserved. -/
structure Language where
  Name : String
  Kind : String
  PrimaryExtension : String
  Extensions : List String
deriving DecidableEq, Repr

/-- The two package variables that `mustParseLanguages` builds: the slice
`Languages`, whose entries are pointers (`none` is `nil`), and the map
`LanguagesByExtension`, in which an absent key reads as the empty slice. -/
structure Indexes where
  Languages : List (Option Language)
  LanguagesByExtension : String → List Language

/-- The inner loop
`for _, ext := range exts { LanguagesByExtension[ext] = append(LanguagesByExtension[ext], lang) }`. -/
def addExtensions (lang : Language) : List String → (String → List Language) →
    (String → List Language)
  | [], m => m
  | ext :: exts, m => addExtensions lang exts (fun e => if e = ext then m ext ++ [lang] else m e)

/-- The loop `for name, lang := range languagesByName` with its counter `i`.
The map is given as the list of its entries in the order in which the loop
visits them. -/
def parseLoop : List (String × Language) → Nat → Indexes → Indexes
  | [], _, st => st
  | (name, lang) :: rest, i, st =>
    let lang : Language := { lang with Name := name }
    let exts := [lang.PrimaryExtension] ++ lang.Extensions
    parseLoop rest (i + 1)
      { Languages := st.Languages.set i (some lang),
        LanguagesByExtension := addExtensions lang exts st.LanguagesByExtension }

/-- The body of `mustParseLanguages` after `goyaml.Unmarshal` has filled
`languagesByName`: `Languages` is made with one `nil` slot per entry of the
table, `LanguagesByExtension` is made empty, and the loop fills both. -/
def mustParseLanguages (languagesByName : List (String × Language)) : Indexes :=
  parseLoop languagesByName 0
    { Languages := List.replicate languagesByName.length none,
      LanguagesByExtension := fun _ => [] }

/-- The language of a table entry as the loop stores it: with its `Name` set to
the key. -/
def named (kv : String × Language) : Language := { kv.2 with Name := kv.1 }

/-- A table with two languages that share the extension `.h`. -/
def sampleTable : List (String × Language) :=
  [("C", { Name := "", Kind := "programming", PrimaryExtension := ".c", Extensions := [".h"] }),
   ("C++", { Name := "", Kind := "programming", PrimaryExtension := ".cpp",
             Extensions := [".h", ".hpp"] })]

end Scan

namespace Golang

/-! ## The bounded loops run to completion -/

/-- A path element that starts at a character other than the separator has at
least one character. -/
theorem elem_length_pos (path : List Char) (r : Nat) (hr : r < path.length)
    (hs : isSep (path.getD r '/') = false) :
    1 ≤ ((path.drop r).takeWhile (fun ch => !isSep ch)).length := by
  rw [List.getD_eq_getElem path '/' hr] at hs
  rw [List.drop_eq_getElem_cons hr, List.takeWhile_cons]
  simp [hs]

/-- The loop of `filepath.Clean` does not depend on the number of iterations it
is allowed, as soon as that number is at least `len(path) - r`: it always
reaches `r >= n`. -/
theorem cleanLoop_fuel (path : List Char) (rooted : Bool) (f1 : Nat) :
    ∀ (f2 r : Nat) (out : List Char) (dotdot : Nat), path.length - r ≤ f1 → path.length - r ≤ f2 →
      cleanLoop path rooted f1 r out dotdot = cleanLoop path rooted f2 r out dotdot := by
  induction f1 with
  | zero =>
    intro f2 r out dotdot h1 _
    have hr : ¬ r < path.length := by omega
    cases f2 with
    | zero => rfl
    | succ f2 => simp [cleanLoop, hr]
  | succ f1 ih =>
    intro f2 r out dotdot h1 h2
    cases f2 with
    | zero =>
      have hr : ¬ r < path.length := by omega
      simp [cleanLoop, hr]
    | succ f2 =>
      unfold cleanLoop
      simp only
      split
      · rename_i hr
        split
        · exact ih f2 (r + 1) out dotdot (by omega) (by omega)
        · rename_i hsep
          split
          · exact ih f2 (r + 1) out dotdot (by omega) (by omega)
          · split
            · split
              · exact ih f2 (r + 2) _ dotdot (by omega) (by omega)
              · split
                · exact ih f2 (r + 2) _ _ (by omega) (by omega)
                · exact ih f2 (r + 2) out dotdot (by omega) (by omega)
            · have hpos := elem_length_pos path r hr (by simpa using hsep)
              exact ih f2 _ _ dotdot (by omega) (by omega)
      · rfl

/-- The scan of an element never moves backwards. -/
theorem le_scanElem (s : List Char) (i : Nat) : i ≤ scanElem s i := by
  unfold scanElem
  omega

/-- The loop of `filepath.Rel` does not depend on the number of iterations it is
allowed, as soon as that number is at least
`(len(base) - bi) + (len(targ) - ti)`: it always reaches its exit. -/
theorem relLoop_fuel (base targ : List Char) (f1 : Nat) :
    ∀ (f2 b0 bi t0 ti : Nat),
      (base.length - bi) + (targ.length - ti) ≤ f1 →
      (base.length - bi) + (targ.length - ti) ≤ f2 →
      relLoop base targ f1 (b0, bi, t0, ti) = relLoop base targ f2 (b0, bi, t0, ti) := by
  induction f1 with
  | zero =>
    intro f2 b0 bi t0 ti h1 _
    have hb : ¬ (bi < base.length ∨ ti < targ.length) := by omega
    cases f2 with
    | zero => rfl
    | succ f2 => simp [relLoop, hb]
  | succ f1 ih =>
    intro f2 b0 bi t0 ti h1 h2
    cases f2 with
    | zero =>
      have hb : ¬ (bi < base.length ∨ ti < targ.length) := by omega
      simp [relLoop, hb]
    | succ f2 =>
      unfold relLoop
      simp only
      split
      · rename_i hb
        have hscanb := le_scanElem base bi
        have hscant := le_scanElem targ ti
        split
        · rfl
        · split <;> split <;> exact ih f2 _ _ _ _ (by omega) (by omega)
      · rfl

/-! ## The three branches of the resolver -/

theorem resolve_of_hit (env : Env) (Get : Index) (v : goVersion) (p : String) (c : Repository)
    (t : ResolvedTarget) (h : v.resolveCache p = some t) :
    resolveGoImportDep env Get v p c = ⟨.ok t, v, []⟩ := by
  simp [resolveGoImportDep, h]

theorem resolve_of_local (env : Env) (Get : Index) (v : goVersion) (p : String) (c : Repository)
    (hmiss : v.resolveCache p = none) (hpre : HasPrefix p (goConfig c).BaseImportPath = true) :
    resolveGoImportDep env Get v p c =
      match Rel (goConfig c).BaseImportPath p with
      | .error err => ⟨.error err, v, []⟩
      | .ok dir =>
        ⟨.ok { ToRepoCloneURL := c.URI, ToUnitID := env.MakeID { Dir := dir, ImportPath := p },
               ToVersionString := "", ToRevSpec := "" }, v, []⟩ := by
  simp [resolveGoImportDep, hmiss, hpre]

theorem resolve_of_external (env : Env) (Get : Index) (v : goVersion) (p : String) (c : Repository)
    (hmiss : v.resolveCache p = none) (hpre : HasPrefix p (goConfig c).BaseImportPath = false) :
    resolveGoImportDep env Get v p c =
      match Get p with
      | .error _ => ⟨.error (fetchError env p), v, [p]⟩
      | .ok dir =>
        match Rel dir.ProjectRoot dir.ImportPath with
        | .error err => ⟨.error err, v, [p]⟩
        | .ok rel =>
          ⟨.ok (externalTarget env v dir rel),
            { v with resolveCache := v.resolveCache.set p (externalTarget env v dir rel) }, [p]⟩ := by
  simp only [resolveGoImportDep, hmiss, hpre, externalTarget]
  cases Get p with
  | error e => simp
  | ok dir =>
    cases Rel dir.ProjectRoot dir.ImportPath with
    | error e => simp
    | ok rel => by_cases hg : env.IsGoRepoPath dir.ImportPath = true <;> simp [hg]

/-- One call never replaces an entry of the cache: the only assignment, in the
external branch, is to a key that the lookup at the start found absent. -/
theorem resolve_keeps_entry (env : Env) (Get : Index) (v : goVersion) (p : String) (c : Repository)
    (q : String) (t : ResolvedTarget) (h : v.resolveCache q = some t) :
    (resolveGoImportDep env Get v p c).after.resolveCache q = some t := by
  cases hc : v.resolveCache p with
  | some t0 => rw [resolve_of_hit env Get v p c t0 hc]; exact h
  | none =>
    by_cases hpre : HasPrefix p (goConfig c).BaseImportPath = true
    · rw [resolve_of_local env Get v p c hc hpre]
      cases Rel (goConfig c).BaseImportPath p <;> exact h
    · have hpre2 : HasPrefix p (goConfig c).BaseImportPath = false := by simpa using hpre
      rw [resolve_of_external env Get v p c hc hpre2]
      cases Get p with
      | error e => exact h
      | ok dir =>
        simp only
        cases Rel dir.ProjectRoot dir.ImportPath with
        | error e => exact h
        | ok rel =>
          have hqp : q ≠ p := by
            intro hqp
            rw [hqp, hc] at h
            exact Option.noConfusion h
          simp [Cache.set, hqp, h]

/-- `strings.HasPrefix` is the prefix relation on the characters. -/
theorem hasPrefix_iff (s pre : String) : HasPrefix s pre = true ↔ pre.data <+: s.data := by
  unfold HasPrefix
  rw [decide_eq_true_iff]
  constructor
  · rintro ⟨_, h⟩
    exact List.prefix_iff_eq_take.mpr h.symm
  · intro h
    exact ⟨h.length_le, (List.prefix_iff_eq_take.mp h).symm⟩

/-- An import path that is the base import path, or that continues it after a
path separator, has it as a prefix. -/
theorem hasPrefix_of_within (p b : String) (h : p = b ∨ HasPrefix p (b ++ "/") = true) :
    HasPrefix p b = true := by
  rw [hasPrefix_iff]
  rcases h with h | h
  · rw [h]
  · rw [hasPrefix_iff, String.data_append] at h
    exact (List.prefix_append b.data "/".data).trans h

/-- `strings.HasSuffix` is the suffix relation on the characters. -/
theorem hasSuffix_iff (s suf : String) : HasSuffix s suf = true ↔ suf.data <:+ s.data := by
  unfold HasSuffix
  rw [decide_eq_true_iff]
  constructor
  · rintro ⟨_, h⟩
    exact List.suffix_iff_eq_drop.mpr h.symm
  · intro h
    exact ⟨h.length_le, (List.suffix_iff_eq_drop.mp h).symm⟩

/-- `strings.TrimSuffix` removes one copy of the suffix. -/
theorem trimSuffix_append (t suf : List Char) :
    TrimSuffix (String.mk (t ++ suf)) (String.mk suf) = String.mk t := by
  have h : HasSuffix (String.mk (t ++ suf)) (String.mk suf) = true :=
    (hasSuffix_iff _ _).mpr (List.suffix_append t suf)
  simp [TrimSuffix, h]

/-- After `strings.TrimSuffix(s, "/")` a trailing slash is left only when `s`
ended in two slashes. -/
theorem trimSuffix_slash_no_slash (s : String) (h : HasSuffix s "//" = false) :
    HasSuffix (TrimSuffix s "/") "/" = false := by
  by_cases h1 : HasSuffix s "/" = true
  · obtain ⟨t, ht⟩ := (hasSuffix_iff s "/").mp h1
    have hs : s = String.mk (t ++ "/".data) := by
      cases s
      simp only at ht
      rw [ht]
    rw [hs]
    have htrim := trimSuffix_append t "/".data
    rw [show String.mk "/".data = "/" from rfl] at htrim
    rw [htrim]
    by_contra h2
    have h2t : HasSuffix (String.mk t) "/" = true := by simpa using h2
    obtain ⟨u, hu⟩ := (hasSuffix_iff _ "/").mp h2t
    simp only at hu
    have hss : HasSuffix s "//" = true := by
      rw [hasSuffix_iff, hs]
      refine ⟨u, ?_⟩
      rw [← hu]
      show u ++ ['/', '/'] = (u ++ ['/']) ++ ['/']
      simp
    rw [hss] at h
    exact Bool.noConfusion h
  · have h1f : HasSuffix s "/" = false := by simpa using h1
    simp [TrimSuffix, h1f]

/-- A rune that is printable and is neither the double quote nor the backslash
is copied by `strconv.Quote` as it is. -/
theorem quote_plain (IsPrint : Char → Bool) (l : List Char)
    (h : ∀ ch ∈ l, IsPrint ch = true ∧ ch ≠ Char.ofNat 34 ∧ ch ≠ Char.ofNat 92) :
    l.flatMap (appendEscapedRune IsPrint) = l := by
  induction l with
  | nil => rfl
  | cons a l ih =>
    have ha := h a (List.mem_cons_self a l)
    have hl : ∀ ch ∈ l, IsPrint ch = true ∧ ch ≠ Char.ofNat 34 ∧ ch ≠ Char.ofNat 92 :=
      fun ch hch => h ch (List.mem_cons_of_mem a hch)
    rw [List.flatMap_cons, ih hl]
    simp [appendEscapedRune, ha.1, ha.2.1, ha.2.2]

/-! ## Claims -/

/-- C1: if the cache already maps the import path `p` to a target `t`, then
`resolveGoImportDep(p, c)` returns exactly `t` with no error and passes nothing
to the package index, for every configuration `c` (also when `p` is prefixed by
the base import path of `c`); the receiver is left as it was. -/
theorem cache_hit_returns_entry (env : Env) (Get : Index) (v : goVersion) (p : String)
    (c : Repository) (t : ResolvedTarget) (h : v.resolveCache p = some t) :
    (resolveGoImportDep env Get v p c).result = .ok t ∧
    (resolveGoImportDep env Get v p c).lookups = [] ∧
    (resolveGoImportDep env Get v p c).after = v := by
  rw [resolve_of_hit env Get v p c t h]
  exact ⟨rfl, rfl, rfl⟩

/-- Instance of C1: the cache holds an entry for `app/util/internal`, an import
path prefixed by the base import path `app/util`; the entry is returned. -/
theorem cache_hit_returns_entry_witness :
    ({ go12 with resolveCache := Cache.empty.set "app/util/internal" ⟨"u", "i", "1", "r"⟩ } :
        goVersion).resolveCache "app/util/internal" = some ⟨"u", "i", "1", "r"⟩ ∧
    HasPrefix "app/util/internal" (goConfig appUtil).BaseImportPath = true ∧
    (resolveGoImportDep specEnv stubIndex
        { go12 with resolveCache := Cache.empty.set "app/util/internal" ⟨"u", "i", "1", "r"⟩ }
        "app/util/internal" appUtil).result = .ok ⟨"u", "i", "1", "r"⟩ ∧
    (resolveGoImportDep specEnv stubIndex
        { go12 with resolveCache := Cache.empty.set "app/util/internal" ⟨"u", "i", "1", "r"⟩ }
        "app/util/internal" appUtil).lookups = [] :=
  ⟨by decide, by decide,
    (cache_hit_returns_entry specEnv stubIndex
      { go12 with resolveCache := Cache.empty.set "app/util/internal" ⟨"u", "i", "1", "r"⟩ }
      "app/util/internal" appUtil ⟨"u", "i", "1", "r"⟩ (by decide)).1,
    (cache_hit_returns_entry specEnv stubIndex
      { go12 with resolveCache := Cache.empty.set "app/util/internal" ⟨"u", "i", "1", "r"⟩ }
      "app/util/internal" appUtil ⟨"u", "i", "1", "r"⟩ (by decide)).2.1⟩

/-- C2: when the import path `p` has the base import path of `c` as a string
prefix, `resolveGoImportDep(p, c)` passes nothing to the package index
(`gosrc.Get`), whatever the cache holds. -/
theorem prefixed_path_never_looked_up (env : Env) (Get : Index) (v : goVersion) (p : String)
    (c : Repository) (hpre : HasPrefix p (goConfig c).BaseImportPath = true) :
    (resolveGoImportDep env Get v p c).lookups = [] := by
  cases hc : v.resolveCache p with
  | some t => rw [resolve_of_hit env Get v p c t hc]
  | none =>
    rw [resolve_of_local env Get v p c hc hpre]
    cases Rel (goConfig c).BaseImportPath p <;> rfl

/-- Instance of C2: `app/util/internal` under the base import path `app/util`. -/
theorem prefixed_path_never_looked_up_witness :
    HasPrefix "app/util/internal" (goConfig appUtil).BaseImportPath = true ∧
    (resolveGoImportDep specEnv stubIndex go12 "app/util/internal" appUtil).lookups = [] :=
  ⟨by decide,
    prefixed_path_never_looked_up specEnv stubIndex go12 "app/util/internal" appUtil (by decide)⟩

/-- C3, as stated, fails: the base import path `""` is a prefix of the import
path `/x`, which is not in the cache and lies below it, and the resolver returns
the error of `filepath.Rel` instead of a target.  It fails with a base import
path that is not empty too: `../..` is a prefix of `../..z/..`, and the resolver
returns the error of `filepath.Rel`. -/
theorem local_resolution_can_fail :
    (go12.resolveCache "/x" = none ∧
      HasPrefix "/x"
        (goConfig { URI := "example.com/repo", Go := { BaseImportPath := "" } }).BaseImportPath
        = true ∧
      HasPrefix "/x" ("" ++ "/") = true ∧
      (resolveGoImportDep specEnv noIndex go12 "/x"
          { URI := "example.com/repo", Go := { BaseImportPath := "" } }).result
        = .error "Rel: can't make /x relative to ") ∧
    (go12.resolveCache "../..z/.." = none ∧
      HasPrefix "../..z/.."
        (goConfig { URI := "example.com/repo", Go := { BaseImportPath := "../.." } }).BaseImportPath
        = true ∧
      (resolveGoImportDep specEnv noIndex go12 "../..z/.."
          { URI := "example.com/repo", Go := { BaseImportPath := "../.." } }).result
        = .error "Rel: can't make ../..z/.. relative to ../..") := by
  decide

/-- C3, amended: for an import path `p` that is not in the cache and a
configuration `c` whose base import path `b` is `p` itself or is followed in `p`
by a path separator (`p` lies within the namespace of `b`), the resolver takes
the local branch, calls no package index, and returns what `filepath.Rel(b, p)`
decides.  If `Rel` yields `dir`, the call succeeds with the target whose
`ToRepoCloneURL` is `c.URI`, whose `ToUnitID` is the identifier of
`Package{Dir: dir, ImportPath: p}` and whose version string and revision
specifier are empty; if `Rel` fails, the call returns that error and no target.
With `b = "app/util"` and `p = "app/util/internal"` the call succeeds, the
relative location is `internal`, and the identifier of the spec is
`internal`. -/
theorem local_resolution (env : Env) (Get : Index) (v : goVersion) (p : String) (c : Repository)
    (hmiss : v.resolveCache p = none)
    (hin : p = (goConfig c).BaseImportPath ∨
      HasPrefix p ((goConfig c).BaseImportPath ++ "/") = true) :
    HasPrefix p (goConfig c).BaseImportPath = true ∧
    (resolveGoImportDep env Get v p c).lookups = [] ∧
    (∀ dir, Rel (goConfig c).BaseImportPath p = .ok dir →
      (resolveGoImportDep env Get v p c).result =
        .ok { ToRepoCloneURL := c.URI, ToUnitID := env.MakeID { Dir := dir, ImportPath := p },
              ToVersionString := "", ToRevSpec := "" }) ∧
    (∀ err, Rel (goConfig c).BaseImportPath p = .error err →
      (resolveGoImportDep env Get v p c).result = .error err) ∧
    (p = "app/util/internal" → (goConfig c).BaseImportPath = "app/util" →
      (resolveGoImportDep env Get v p c).result =
        .ok { ToRepoCloneURL := c.URI,
              ToUnitID := env.MakeID { Dir := "internal", ImportPath := "app/util/internal" },
              ToVersionString := "", ToRevSpec := "" } ∧
      specMakeID { Dir := "internal", ImportPath := "app/util/internal" } = "internal") := by
  have hpre : HasPrefix p (goConfig c).BaseImportPath = true :=
    hasPrefix_of_within p (goConfig c).BaseImportPath hin
  rw [resolve_of_local env Get v p c hmiss hpre]
  refine ⟨hpre, ?_, ?_, ?_, ?_⟩
  · cases Rel (goConfig c).BaseImportPath p <;> rfl
  · intro dir hrel
    rw [hrel]
  · intro err hrel
    rw [hrel]
  · intro hp hb
    subst hp
    rw [hb]
    have hrel : Rel "app/util" "app/util/internal" = .ok "internal" := by decide
    rw [hrel]
    exact ⟨rfl, by decide⟩

/-- Instance of C3: the scenario of the spec, `app/util/internal` under the
base import path `app/util`, resolves to the repository's own URI and the unit
identifier `internal`. -/
theorem local_resolution_witness :
    go12.resolveCache "app/util/internal" = none ∧
    HasPrefix "app/util/internal" ((goConfig appUtil).BaseImportPath ++ "/") = true ∧
    (resolveGoImportDep specEnv noIndex go12 "app/util/internal" appUtil).result =
      .ok { ToRepoCloneURL := "example.com/app/util", ToUnitID := "internal",
            ToVersionString := "", ToRevSpec := "" } :=
  ⟨by decide, by decide,
    ((local_resolution specEnv noIndex go12 "app/util/internal" appUtil (by decide)
      (Or.inr (by decide))).2.2.2.2 rfl rfl).1⟩

/-- C4: resolution is idempotent.  If `resolveGoImportDep(p, c)` succeeds with
`t1` and is called again with the same `p` and `c` on the receiver it left,
against the same package index, the second call succeeds with a target whose
four fields are those of `t1`. -/
theorem resolution_idempotent (env : Env) (Get : Index) (v : goVersion) (p : String)
    (c : Repository) (t1 : ResolvedTarget)
    (h : (resolveGoImportDep env Get v p c).result = .ok t1) :
    ∃ t2, (resolveGoImportDep env Get (resolveGoImportDep env Get v p c).after p c).result = .ok t2 ∧
      t2.ToRepoCloneURL = t1.ToRepoCloneURL ∧ t2.ToUnitID = t1.ToUnitID ∧
      t2.ToVersionString = t1.ToVersionString ∧ t2.ToRevSpec = t1.ToRevSpec := by
  refine ⟨t1, ?_, rfl, rfl, rfl, rfl⟩
  cases hc : v.resolveCache p with
  | some t =>
    rw [resolve_of_hit env Get v p c t hc] at h ⊢
    simp only at h ⊢
    rw [resolve_of_hit env Get v p c t hc]
    exact h
  | none =>
    by_cases hpre : HasPrefix p (goConfig c).BaseImportPath = true
    · have hafter : (resolveGoImportDep env Get v p c).after = v := by
        rw [resolve_of_local env Get v p c hc hpre]
        cases Rel (goConfig c).BaseImportPath p <;> rfl
      rw [hafter]
      exact h
    · have hpre2 : HasPrefix p (goConfig c).BaseImportPath = false := by
        simpa using hpre
      rw [resolve_of_external env Get v p c hc hpre2] at h ⊢
      cases hg : Get p with
      | error e => rw [hg] at h; simp at h
      | ok dir =>
        rw [hg] at h
        simp only at h ⊢
        cases hr : Rel dir.ProjectRoot dir.ImportPath with
        | error e => rw [hr] at h; simp at h
        | ok rel =>
          rw [hr] at h
          simp only at h ⊢
          have ht : externalTarget env v dir rel = t1 := by
            injection h
          rw [ht]
          rw [resolve_of_hit env Get _ p c t1 (by simp [Cache.set])]

/-- Instance of C4: resolving `example.org/lib` twice against the stubbed
package index. -/
theorem resolution_idempotent_witness :
    (resolveGoImportDep specEnv stubIndex go12 "example.org/lib" appUtil).result =
      .ok ⟨"https://example.org/lib", "", "", ""⟩ ∧
    ∃ t2, (resolveGoImportDep specEnv stubIndex
        (resolveGoImportDep specEnv stubIndex go12 "example.org/lib" appUtil).after
        "example.org/lib" appUtil).result = .ok t2 ∧
      t2.ToRepoCloneURL = "https://example.org/lib" ∧ t2.ToUnitID = "" ∧
      t2.ToVersionString = "" ∧ t2.ToRevSpec = "" :=
  ⟨by decide,
    resolution_idempotent specEnv stubIndex go12 "example.org/lib" appUtil
      ⟨"https://example.org/lib", "", "", ""⟩ (by decide)⟩

/-- C5, as stated, fails: the local resolution of `app/util/internal` under the
base import path `app/util` succeeds, and afterwards the cache still has no
entry for that import path. -/
theorem local_target_not_cached :
    (resolveGoImportDep specEnv noIndex go12 "app/util/internal" appUtil).result =
      .ok ⟨"example.com/app/util", "internal", "", ""⟩ ∧
    (resolveGoImportDep specEnv noIndex go12 "app/util/internal" appUtil).after.resolveCache
      "app/util/internal" = none := by
  decide

/-- C5, amended: if `resolveGoImportDep(p, c)` returns the target `t` without
error, then afterwards the cache maps `p` to `t` whenever the target came from
a cache hit or from the external branch; a target resolved locally (cache miss
and `p` prefixed by the base import path) is returned without being inserted,
and the receiver is left as it was. -/
theorem success_cached_unless_local (env : Env) (Get : Index) (v : goVersion) (p : String)
    (c : Repository) (t : ResolvedTarget)
    (h : (resolveGoImportDep env Get v p c).result = .ok t) :
    (¬ (v.resolveCache p = none ∧ HasPrefix p (goConfig c).BaseImportPath = true) →
      (resolveGoImportDep env Get v p c).after.resolveCache p = some t) ∧
    (v.resolveCache p = none ∧ HasPrefix p (goConfig c).BaseImportPath = true →
      (resolveGoImportDep env Get v p c).after = v ∧
      (resolveGoImportDep env Get v p c).after.resolveCache p = none) := by
  cases hc : v.resolveCache p with
  | some t0 =>
    rw [resolve_of_hit env Get v p c t0 hc] at h ⊢
    simp only at h
    have ht : t0 = t := by injection h
    subst ht
    exact ⟨fun _ => hc, fun hloc => Option.noConfusion hloc.1⟩
  | none =>
    by_cases hpre : HasPrefix p (goConfig c).BaseImportPath = true
    · have hafter : (resolveGoImportDep env Get v p c).after = v := by
        rw [resolve_of_local env Get v p c hc hpre]
        cases Rel (goConfig c).BaseImportPath p <;> rfl
      refine ⟨fun hn => absurd ⟨rfl, hpre⟩ hn, fun _ => ⟨hafter, ?_⟩⟩
      rw [hafter]
      exact hc
    · have hpre2 : HasPrefix p (goConfig c).BaseImportPath = false := by simpa using hpre
      refine ⟨fun _ => ?_, fun hloc => absurd hloc.2 hpre⟩
      rw [resolve_of_external env Get v p c hc hpre2] at h ⊢
      cases hg : Get p with
      | error e => rw [hg] at h; simp at h
      | ok dir =>
        rw [hg] at h
        simp only at h ⊢
        cases hr : Rel dir.ProjectRoot dir.ImportPath with
        | error e => rw [hr] at h; simp at h
        | ok rel =>
          rw [hr] at h
          simp only at h ⊢
          have ht : externalTarget env v dir rel = t := by injection h
          simp [Cache.set, ht]

/-- Instance of C5: the external resolution of `example.org/lib` leaves its
target in the cache. -/
theorem success_cached_unless_local_witness :
    (resolveGoImportDep specEnv stubIndex go12 "example.org/lib" appUtil).result =
      .ok ⟨"https://example.org/lib", "", "", ""⟩ ∧
    ¬ (go12.resolveCache "example.org/lib" = none ∧
        HasPrefix "example.org/lib" (goConfig appUtil).BaseImportPath = true) ∧
    (resolveGoImportDep specEnv stubIndex go12 "example.org/lib" appUtil).after.resolveCache
      "example.org/lib" = some ⟨"https://example.org/lib", "", "", ""⟩ :=
  ⟨by decide, by decide,
    (success_cached_unless_local specEnv stubIndex go12 "example.org/lib" appUtil
      ⟨"https://example.org/lib", "", "", ""⟩ (by decide)).1 (by decide)⟩

/-- C6: cache entries are never replaced.  Over every sequence of sequential
calls of `resolveGoImportDep` on one resolver (any import paths, any
configurations, any answers of the package index), once the cache maps an import
path `p` to a target `t` it maps `p` to that same `t` in every later state. -/
theorem cache_entries_never_replaced (env : Env) (calls : List Call) (v : goVersion) (p : String)
    (t : ResolvedTarget) (h : v.resolveCache p = some t) :
    (runCalls env v calls).resolveCache p = some t := by
  induction calls generalizing v with
  | nil => exact h
  | cons k ks ih =>
    exact ih (resolveGoImportDep env k.Get v k.importPath k.c).after
      (resolve_keeps_entry env k.Get v k.importPath k.c p t h)

/-- Instance of C6: an entry for `example.org/lib` survives a later call for the
same import path against a package index that now answers differently, and a
call for another import path. -/
theorem cache_entries_never_replaced_witness :
    ({ go12 with resolveCache := Cache.empty.set "example.org/lib" ⟨"u", "i", "", ""⟩ } :
        goVersion).resolveCache "example.org/lib" = some ⟨"u", "i", "", ""⟩ ∧
    (runCalls specEnv
        { go12 with resolveCache := Cache.empty.set "example.org/lib" ⟨"u", "i", "", ""⟩ }
        [⟨"example.org/lib", appUtil, stubIndex⟩, ⟨"app/util/internal", appUtil, noIndex⟩]
      ).resolveCache "example.org/lib" = some ⟨"u", "i", "", ""⟩ :=
  ⟨by decide,
    cache_entries_never_replaced specEnv
      [⟨"example.org/lib", appUtil, stubIndex⟩, ⟨"app/util/internal", appUtil, noIndex⟩]
      { go12 with resolveCache := Cache.empty.set "example.org/lib" ⟨"u", "i", "", ""⟩ }
      "example.org/lib" ⟨"u", "i", "", ""⟩ (by decide)⟩

/-- C7, as stated, fails: `net/http` belongs to the standard distribution, the
resolver for Go 1.2 resolves it locally under the base import path `net`, and
the target carries neither the version string nor the revision of the
resolver. -/
theorem local_target_not_stamped :
    stdEnv.IsGoRepoPath "net/http" = true ∧
    ∃ t, (resolveGoImportDep stdEnv stdIndex go12 "net/http" netRepo).result = .ok t ∧
      t.ToVersionString ≠ go12.VersionString ∧ t.ToRevSpec ≠ go12.VCSRevision :=
  ⟨by decide, ⟨"example.com/go", "http", "", ""⟩, by decide, by decide, by decide⟩

/-- C7, amended: stamping is done by the external branch.  When
`resolveGoImportDep(p, c)` misses the cache and returns `t`: if `p` is not
prefixed by the base import path and the import path answered by the package
index belongs to the Go standard distribution, then `t.ToVersionString` is
`v.VersionString` and `t.ToRevSpec` is `v.VCSRevision`, and every later call for
`p` on the resulting receiver (a cache hit) returns that same stamped `t`; if
`p` is prefixed by the base import path, the version string and the revision
specifier of `t` are empty. -/
theorem external_target_stamped (env : Env) (Get : Index) (v : goVersion) (p : String)
    (c : Repository) (t : ResolvedTarget)
    (hmiss : v.resolveCache p = none)
    (h : (resolveGoImportDep env Get v p c).result = .ok t) :
    (HasPrefix p (goConfig c).BaseImportPath = false →
      ∀ dir, Get p = .ok dir → env.IsGoRepoPath dir.ImportPath = true →
        t.ToVersionString = v.VersionString ∧ t.ToRevSpec = v.VCSRevision ∧
        (resolveGoImportDep env Get v p c).after.VersionString = v.VersionString ∧
        (resolveGoImportDep env Get v p c).after.VCSRevision = v.VCSRevision ∧
        ∀ (Get2 : Index) (c2 : Repository),
          (resolveGoImportDep env Get2 (resolveGoImportDep env Get v p c).after p c2).result
            = .ok t) ∧
    (HasPrefix p (goConfig c).BaseImportPath = true →
      t.ToVersionString = "" ∧ t.ToRevSpec = "") := by
  constructor
  · intro hpre dir hg hstd
    rw [resolve_of_external env Get v p c hmiss hpre, hg] at h ⊢
    simp only at h ⊢
    cases hr : Rel dir.ProjectRoot dir.ImportPath with
    | error e => rw [hr] at h; simp at h
    | ok rel =>
      rw [hr] at h
      simp only at h ⊢
      have ht : externalTarget env v dir rel = t := by injection h
      rw [ht]
      refine ⟨?_, ?_, trivial, trivial, ?_⟩
      · rw [← ht]; simp [externalTarget, hstd]
      · rw [← ht]; simp [externalTarget, hstd]
      · intro Get2 c2
        rw [resolve_of_hit env Get2 _ p c2 t (by simp [Cache.set])]
  · intro hpre
    rw [resolve_of_local env Get v p c hmiss hpre] at h
    cases hr : Rel (goConfig c).BaseImportPath p with
    | error e => rw [hr] at h; simp at h
    | ok dir =>
      rw [hr] at h
      simp only at h
      have ht : (⟨c.URI, env.MakeID ⟨dir, p⟩, "", ""⟩ : ResolvedTarget) = t := by injection h
      rw [← ht]
      exact ⟨rfl, rfl⟩

/-- Instance of C7: `net/http`, resolved through the package index by the
resolver for Go 1.2, is stamped with `1.2` and `go1.2`. -/
theorem external_target_stamped_witness :
    go12.resolveCache "net/http" = none ∧
    (resolveGoImportDep stdEnv stdIndex go12 "net/http" appUtil).result =
      .ok ⟨"https://code.google.com/p/go", "net/http", "1.2", "go1.2"⟩ ∧
    HasPrefix "net/http" (goConfig appUtil).BaseImportPath = false ∧
    stdEnv.IsGoRepoPath "net/http" = true ∧
    (⟨"https://code.google.com/p/go", "net/http", "1.2", "go1.2"⟩ : ResolvedTarget).ToVersionString
      = go12.VersionString :=
  ⟨by decide, by decide, by decide, by decide,
    ((external_target_stamped stdEnv stdIndex go12 "net/http" appUtil
      ⟨"https://code.google.com/p/go", "net/http", "1.2", "go1.2"⟩ (by decide) (by decide)).1
      (by decide) ⟨"net/http", "", "https://code.google.com/p/go"⟩ (by decide) (by decide)).1⟩

/-- C8, as stated, fails: when the package index answers with the project URL
`https://example.org/lib//`, the `ToRepoCloneURL` of the returned target is
`https://example.org/lib/`, which still ends in a slash. -/
theorem clone_url_can_end_in_slash :
    ∃ t, (resolveGoImportDep specEnv doubleSlashIndex go12 "example.org/lib" appUtil).result
        = .ok t ∧
      t.ToRepoCloneURL = "https://example.org/lib/" ∧ HasSuffix t.ToRepoCloneURL "/" = true :=
  ⟨⟨"https://example.org/lib/", "", "", ""⟩, by decide, by decide, by decide⟩

/-- C8, amended: for every externally resolved import path, whatever project URL
the package index returns, the `ToRepoCloneURL` of the returned target is that
URL with one trailing `/` removed when it ends in `/`, and that URL itself
otherwise; it does not end in `/` unless the project URL ended in `//`
(`https://example.org/lib/` becomes `https://example.org/lib`). -/
theorem clone_url_one_slash_trimmed (env : Env) (Get : Index) (v : goVersion) (p : String)
    (c : Repository) (dir : Directory) (t : ResolvedTarget)
    (hmiss : v.resolveCache p = none)
    (hpre : HasPrefix p (goConfig c).BaseImportPath = false)
    (hg : Get p = .ok dir)
    (h : (resolveGoImportDep env Get v p c).result = .ok t) :
    t.ToRepoCloneURL = TrimSuffix dir.ProjectURL "/" ∧
    (HasSuffix dir.ProjectURL "/" = false → t.ToRepoCloneURL = dir.ProjectURL) ∧
    (HasSuffix dir.ProjectURL "//" = false → HasSuffix t.ToRepoCloneURL "/" = false) ∧
    (dir.ProjectURL = "https://example.org/lib/" → t.ToRepoCloneURL = "https://example.org/lib") := by
  rw [resolve_of_external env Get v p c hmiss hpre, hg] at h
  simp only at h
  cases hr : Rel dir.ProjectRoot dir.ImportPath with
  | error e => rw [hr] at h; simp at h
  | ok rel =>
    rw [hr] at h
    simp only at h
    have ht : externalTarget env v dir rel = t := by injection h
    have hurl : t.ToRepoCloneURL = TrimSuffix dir.ProjectURL "/" := by
      rw [← ht]
      unfold externalTarget
      split <;> rfl
    refine ⟨hurl, ?_, ?_, ?_⟩
    · intro hno
      rw [hurl]
      simp [TrimSuffix, hno]
    · intro hno
      rw [hurl]
      exact trimSuffix_slash_no_slash dir.ProjectURL hno
    · intro he
      rw [hurl, he]
      decide

/-- Instance of C8: the stubbed package index answers `https://example.org/lib/`
and the target carries `https://example.org/lib`. -/
theorem clone_url_one_slash_trimmed_witness :
    go12.resolveCache "example.org/lib" = none ∧
    HasPrefix "example.org/lib" (goConfig appUtil).BaseImportPath = false ∧
    stubIndex "example.org/lib" =
      .ok ⟨"example.org/lib", "example.org/lib", "https://example.org/lib/"⟩ ∧
    (resolveGoImportDep specEnv stubIndex go12 "example.org/lib" appUtil).result =
      .ok ⟨"https://example.org/lib", "", "", ""⟩ ∧
    (⟨"https://example.org/lib", "", "", ""⟩ : ResolvedTarget).ToRepoCloneURL =
      TrimSuffix "https://example.org/lib/" "/" :=
  ⟨by decide, by decide, by decide, by decide,
    (clone_url_one_slash_trimmed specEnv stubIndex go12 "example.org/lib" appUtil
      ⟨"example.org/lib", "example.org/lib", "https://example.org/lib/"⟩
      ⟨"https://example.org/lib", "", "", ""⟩ (by decide) (by decide) (by decide) (by decide)).1⟩

/-- C9: the external scenario.  When `example.org/lib` is not in the cache (as
with an empty cache) and the base import path is not a prefix of it, resolving
it passes exactly that import path, once, to the package index; when the index
answers with the project URL `https://example.org/lib/`, the project root
`example.org/lib` and the import path `example.org/lib`, the call succeeds with
a target whose `ToRepoCloneURL` is `https://example.org/lib` and whose unit
identifier is that of the package at the root of its project, which
`filepath.Rel` writes `.`: with the identifier of the spec, the empty string.
The target is stored in the cache. -/
theorem external_scenario (env : Env) (Get : Index) (v : goVersion) (c : Repository)
    (hid : env.MakeID = specMakeID)
    (hmiss : v.resolveCache "example.org/lib" = none)
    (hpre : HasPrefix "example.org/lib" (goConfig c).BaseImportPath = false)
    (hg : Get "example.org/lib" =
      .ok { ImportPath := "example.org/lib", ProjectRoot := "example.org/lib",
            ProjectURL := "https://example.org/lib/" }) :
    (resolveGoImportDep env Get v "example.org/lib" c).lookups = ["example.org/lib"] ∧
    ∃ t, (resolveGoImportDep env Get v "example.org/lib" c).result = .ok t ∧
      t.ToRepoCloneURL = "https://example.org/lib" ∧
      t.ToUnitID = "" ∧
      t.ToUnitID = env.MakeID { Dir := ".", ImportPath := "example.org/lib" } ∧
      (resolveGoImportDep env Get v "example.org/lib" c).after.resolveCache "example.org/lib"
        = some t := by
  have hrel : Rel "example.org/lib" "example.org/lib" = .ok "." := by decide
  have htrim : TrimSuffix "https://example.org/lib/" "/" = "https://example.org/lib" := by decide
  have hunit : (externalTarget env v
      { ImportPath := "example.org/lib", ProjectRoot := "example.org/lib",
        ProjectURL := "https://example.org/lib/" } ".").ToUnitID =
      env.MakeID { Dir := ".", ImportPath := "example.org/lib" } := by
    unfold externalTarget
    split <;> rfl
  rw [resolve_of_external env Get v "example.org/lib" c hmiss hpre, hg]
  simp only [hrel]
  refine ⟨trivial, _, rfl, ?_, ?_, hunit, ?_⟩
  · unfold externalTarget
    split <;> exact htrim
  · rw [hunit, hid]
    decide
  · simp [Cache.set]

/-- Instance of C9: the scenario on the resolver for Go 1.2 with an empty cache,
the base import path `app/util` and the stubbed package index. -/
theorem external_scenario_witness :
    go12.resolveCache "example.org/lib" = none ∧
    HasPrefix "example.org/lib" (goConfig appUtil).BaseImportPath = false ∧
    (resolveGoImportDep specEnv stubIndex go12 "example.org/lib" appUtil).result =
      .ok ⟨"https://example.org/lib", "", "", ""⟩ ∧
    (resolveGoImportDep specEnv stubIndex go12 "example.org/lib" appUtil).lookups
      = ["example.org/lib"] :=
  ⟨by decide, by decide, by decide,
    (external_scenario specEnv stubIndex go12 appUtil rfl (by decide) (by decide)
      (by decide)).1⟩

/-- C10: for an import path `p` that misses the cache and is not prefixed by the
base import path, if the package index fails, with whatever error, then
`resolveGoImportDep` returns no target and the error
`unable to fetch information about Go package ` followed by `p` as the verb
`%q` prints it, which for a `p` of printable runes other than the double quote
and the backslash is `p` itself between double quotes; the receiver is left as
it was. -/
theorem lookup_failure_names_reference (env : Env) (Get : Index) (v : goVersion) (p : String)
    (c : Repository) (e : String)
    (hmiss : v.resolveCache p = none)
    (hpre : HasPrefix p (goConfig c).BaseImportPath = false)
    (hg : Get p = .error e) :
    (resolveGoImportDep env Get v p c).result =
      .error ("unable to fetch information about Go package " ++ Quote env.IsPrint p) ∧
    (∀ t, (resolveGoImportDep env Get v p c).result ≠ .ok t) ∧
    (resolveGoImportDep env Get v p c).after = v ∧
    ((∀ ch ∈ p.data, env.IsPrint ch = true ∧ ch ≠ Char.ofNat 34 ∧ ch ≠ Char.ofNat 92) →
      (resolveGoImportDep env Get v p c).result =
        .error ("unable to fetch information about Go package " ++
          String.mk (Char.ofNat 34 :: p.data ++ [Char.ofNat 34]))) := by
  rw [resolve_of_external env Get v p c hmiss hpre, hg]
  refine ⟨rfl, ?_, rfl, ?_⟩
  · intro t ht
    simp at ht
  · intro hplain
    simp only [fetchError, Quote, quote_plain env.IsPrint p.data hplain]

/-- Instance of C10: the package index knows nothing about `example.org/gone`;
the error names that import path, quoted. -/
theorem lookup_failure_names_reference_witness :
    go12.resolveCache "example.org/gone" = none ∧
    HasPrefix "example.org/gone" (goConfig appUtil).BaseImportPath = false ∧
    stubIndex "example.org/gone" = .error "not found" ∧
    (resolveGoImportDep specEnv stubIndex go12 "example.org/gone" appUtil).result =
      .error "unable to fetch information about Go package \"example.org/gone\"" :=
  ⟨by decide, by decide, by decide,
    (lookup_failure_names_reference specEnv stubIndex go12 "example.org/gone" appUtil "not found"
      (by decide) (by decide) (by decide)).1⟩

/-- C11: unit identifiers agree across the two branches.  If the package index
answers for `p` with the project root `b` and the import path `p`, then the
external branch (here on the receiver `v1` under a configuration `c1` whose
base import path is not a prefix of `p`) and the local branch for `p` under the
base import path `b` (here on `v2` under `c2`) both compute
`filepath.Rel(b, p)`: both fail with its error, or both succeed with the
`ToUnitID` of `Package{Dir: Rel(b, p), ImportPath: p}`. -/
theorem unit_id_same_in_both_branches (env : Env) (Get1 Get2 : Index) (v1 v2 : goVersion)
    (p b : String) (c1 c2 : Repository) (dir : Directory)
    (hmiss1 : v1.resolveCache p = none)
    (hext : HasPrefix p (goConfig c1).BaseImportPath = false)
    (hg : Get1 p = .ok dir) (hroot : dir.ProjectRoot = b) (himp : dir.ImportPath = p)
    (hmiss2 : v2.resolveCache p = none)
    (hb : (goConfig c2).BaseImportPath = b) (hloc : HasPrefix p b = true) :
    (resolveGoImportDep env Get1 v1 p c1).result.map (fun t => t.ToUnitID) =
      (resolveGoImportDep env Get2 v2 p c2).result.map (fun t => t.ToUnitID) ∧
    (∀ d, Rel b p = .ok d →
      (resolveGoImportDep env Get1 v1 p c1).result.map (fun t => t.ToUnitID) =
        .ok (env.MakeID { Dir := d, ImportPath := p }) ∧
      (resolveGoImportDep env Get2 v2 p c2).result.map (fun t => t.ToUnitID) =
        .ok (env.MakeID { Dir := d, ImportPath := p })) := by
  have hloc2 : HasPrefix p (goConfig c2).BaseImportPath = true := by rw [hb]; exact hloc
  rw [resolve_of_external env Get1 v1 p c1 hmiss1 hext, hg,
    resolve_of_local env Get2 v2 p c2 hmiss2 hloc2, hb]
  simp only [hroot, himp]
  have hid : ∀ rel, (externalTarget env v1 dir rel).ToUnitID =
      env.MakeID { Dir := rel, ImportPath := p } := by
    intro rel
    unfold externalTarget
    rw [himp]
    split <;> rfl
  constructor
  · cases hr : Rel b p with
    | error e => rfl
    | ok d =>
      show Except.ok (externalTarget env v1 dir d).ToUnitID = Except.ok _
      rw [hid d]
  · intro d hd
    rw [hd]
    constructor
    · show Except.ok (externalTarget env v1 dir d).ToUnitID = Except.ok _
      rw [hid d]
    · rfl

/-- Instance of C11: `example.org/lib/sub` resolved through the package index,
which places it in the project `example.org/lib`, and resolved locally under the
base import path `example.org/lib`, gets the same unit identifier. -/
theorem unit_id_same_in_both_branches_witness :
    HasPrefix "example.org/lib/sub" (goConfig appUtil).BaseImportPath = false ∧
    HasPrefix "example.org/lib/sub" "example.org/lib" = true ∧
    (resolveGoImportDep specEnv subIndex go12 "example.org/lib/sub" appUtil).result.map
        (fun t => t.ToUnitID) =
      (resolveGoImportDep specEnv noIndex go12 "example.org/lib/sub" libRepo).result.map
        (fun t => t.ToUnitID) :=
  ⟨by decide, by decide,
    (unit_id_same_in_both_branches specEnv subIndex noIndex go12 go12 "example.org/lib/sub"
      "example.org/lib" appUtil libRepo
      ⟨"example.org/lib/sub", "example.org/lib", "https://example.org/lib"⟩
      (by decide) (by decide) (by decide) rfl rfl (by decide) rfl (by decide)).1⟩

/-- C16, the code at the failing input: under the base import path `app/util`
the sibling `app/utility` passes `strings.HasPrefix`, so it is resolved locally,
without any call of the package index: the target carries the repository's own
URI and the unit at the relative location `../utility`, which begins with
`..`. -/
theorem sibling_resolved_locally (env : Env) (Get : Index) :
    HasPrefix "app/utility" (goConfig appUtil).BaseImportPath = true ∧
    Rel "app/util" "app/utility" = .ok "../utility" ∧
    (resolveGoImportDep env Get go12 "app/utility" appUtil).result =
      .ok { ToRepoCloneURL := "example.com/app/util",
            ToUnitID := env.MakeID { Dir := "../utility", ImportPath := "app/utility" },
            ToVersionString := "", ToRevSpec := "" } ∧
    (resolveGoImportDep env Get go12 "app/utility" appUtil).lookups = [] := by
  have hpre : HasPrefix "app/utility" (goConfig appUtil).BaseImportPath = true := by decide
  have hrel : Rel "app/util" "app/utility" = .ok "../utility" := by decide
  have hrel2 : Rel (goConfig appUtil).BaseImportPath "app/utility" = .ok "../utility" := hrel
  rw [resolve_of_local env Get go12 "app/utility" appUtil (by decide) hpre, hrel2]
  exact ⟨hpre, hrel, rfl, rfl⟩

/-- C17: the frame of the cache.  A call `resolveGoImportDep(p, c)` leaves the
cache entry of every key other than `p` unchanged; it leaves the whole receiver,
and so the whole cache, unchanged whenever it hits the cache, resolves locally
or returns an error; and when it changes anything, the call was a successful
external resolution and the change is the new entry for `p`, holding the
returned target. -/
theorem cache_frame (env : Env) (Get : Index) (v : goVersion) (p : String) (c : Repository) :
    (∀ q, q ≠ p →
      (resolveGoImportDep env Get v p c).after.resolveCache q = v.resolveCache q) ∧
    ((∃ t, v.resolveCache p = some t) ∨ HasPrefix p (goConfig c).BaseImportPath = true ∨
        (∃ err, (resolveGoImportDep env Get v p c).result = .error err) →
      (resolveGoImportDep env Get v p c).after = v) ∧
    ((resolveGoImportDep env Get v p c).after = v ∨
      ∃ t, (resolveGoImportDep env Get v p c).result = .ok t ∧
        v.resolveCache p = none ∧ HasPrefix p (goConfig c).BaseImportPath = false ∧
        (resolveGoImportDep env Get v p c).lookups = [p] ∧
        (resolveGoImportDep env Get v p c).after =
          { v with resolveCache := v.resolveCache.set p t }) := by
  cases hc : v.resolveCache p with
  | some t0 =>
    rw [resolve_of_hit env Get v p c t0 hc]
    exact ⟨fun _ _ => rfl, fun _ => rfl, Or.inl rfl⟩
  | none =>
    by_cases hpre : HasPrefix p (goConfig c).BaseImportPath = true
    · rw [resolve_of_local env Get v p c hc hpre]
      cases Rel (goConfig c).BaseImportPath p <;>
        exact ⟨fun _ _ => rfl, fun _ => rfl, Or.inl rfl⟩
    · have hpre2 : HasPrefix p (goConfig c).BaseImportPath = false := by simpa using hpre
      rw [resolve_of_external env Get v p c hc hpre2]
      cases Get p with
      | error e => exact ⟨fun _ _ => rfl, fun _ => rfl, Or.inl rfl⟩
      | ok dir =>
        simp only
        cases Rel dir.ProjectRoot dir.ImportPath with
        | error e => exact ⟨fun _ _ => rfl, fun _ => rfl, Or.inl rfl⟩
        | ok rel =>
          refine ⟨?_, ?_, Or.inr ⟨_, rfl, ?_, hpre2, ?_, ?_⟩⟩
          rotate_left 2
          · trivial
          · trivial
          · trivial
          · intro q hq
            simp [Cache.set, hq]
          · rintro (⟨t, ht⟩ | h | ⟨err, herr⟩)
            · exact Option.noConfusion ht
            · exact absurd h hpre
            · exact Except.noConfusion herr

/-- Instance of C17: the external resolution of `example.org/lib` leaves the
cache entry of `app/util/internal` as it was. -/
theorem cache_frame_witness :
    (resolveGoImportDep specEnv stubIndex go12 "example.org/lib" appUtil).after.resolveCache
      "app/util/internal" = go12.resolveCache "app/util/internal" :=
  (cache_frame specEnv stubIndex go12 "example.org/lib" appUtil).1 "app/util/internal"
    (by decide)

/-! ## The decoder on the JSON encoding of a list of strings -/

/-- After the closing bracket the decoder accepts white space. -/
theorem decodeLoop_endTop (done : List String) (ws : List Char)
    (h : ws.all isJSONSpace = true) : decodeLoop .endTop done ws = some done := by
  induction ws with
  | nil => rfl
  | cons c ws ih =>
    simp only [List.all_cons, Bool.and_eq_true] at h
    rw [decodeLoop.eq_def]
    simp [h.1, ih h.2]

/-- The `\u` escape of a control character decodes to its code. -/
theorem getu4_control : ∀ n, n < 32 →
    getu4 '0' '0' (lowerhex (n / 16)) (lowerhex n) = some n := by
  decide

/-- The decoder reads back an escaped character. -/
theorem decodeLoop_escapeChar (c : Char) (acc : List Char) (done : List String)
    (rest : List Char) :
    decodeLoop (.inString acc) done (escapeChar c ++ rest) =
      decodeLoop (.inString (acc ++ [c])) done rest := by
  unfold escapeChar
  by_cases h1 : c = Char.ofNat 34 ∨ c = Char.ofNat 92
  · rw [if_pos h1]
    show decodeLoop (.inString acc) done (Char.ofNat 92 :: c :: rest) = _
    rw [decodeLoop.eq_def]
    rcases h1 with h | h <;> subst h <;> simp
  · rw [if_neg h1]
    by_cases h2 : c.toNat < 32
    · rw [if_pos h2]
      show decodeLoop (.inString acc) done
        (Char.ofNat 92 :: 'u' :: '0' :: '0' :: lowerhex (c.toNat / 16) :: lowerhex c.toNat :: rest) = _
      have hs : isSurrogate c.toNat = false := by
        unfold isSurrogate
        simp
        omega
      rw [decodeLoop.eq_def]
      simp [getu4_control c.toNat h2, hs]
    · rw [if_neg h2]
      show decodeLoop (.inString acc) done (c :: rest) = _
      have h3 : c ≠ Char.ofNat 34 := fun h => h1 (Or.inl h)
      have h4 : c ≠ Char.ofNat 92 := fun h => h1 (Or.inr h)
      rw [decodeLoop.eq_def]
      simp only [if_neg h3, if_neg h4, if_neg h2]

/-- The decoder reads back the body of a quoted string, up to the closing
quote. -/
theorem decodeLoop_string (s : List Char) (acc : List Char) (done : List String)
    (rest : List Char) :
    decodeLoop (.inString acc) done (s.flatMap escapeChar ++ Char.ofNat 34 :: rest) =
      decodeLoop .endValue (done ++ [String.mk (acc ++ s)]) rest := by
  induction s generalizing acc with
  | nil =>
    show decodeLoop (.inString acc) done (Char.ofNat 34 :: rest) = _
    rw [decodeLoop.eq_def]
    simp
  | cons c s ih =>
    rw [List.flatMap_cons, List.append_assoc, decodeLoop_escapeChar, ih]
    simp

/-- The decoder, where it expects an element, reads back a quoted string. -/
theorem decodeLoop_quoteJSON (first : Bool) (a : String) (done : List String) (rest : List Char) :
    decodeLoop (if first then .beginValueOrEnd else .beginValue) done (quoteJSON a ++ rest) =
      decodeLoop .endValue (done ++ [a]) rest := by
  have h := decodeLoop_string a.data [] done rest
  simp only [List.nil_append] at h
  unfold quoteJSON
  cases first
  · simp only [Bool.false_eq_true, if_false, List.cons_append, List.append_assoc,
      List.singleton_append]
    rw [decodeLoop.eq_def]
    simp [isJSONSpace, h]
  · simp only [if_true, List.cons_append, List.append_assoc, List.singleton_append]
    rw [decodeLoop.eq_def]
    simp [isJSONSpace, h]

/-- The decoder reads back the elements of an encoded array, up to the closing
bracket and the white space after it. -/
theorem decodeLoop_encodeElems (l : List String) (hl : l ≠ []) (first : Bool)
    (done : List String) (ws : List Char) (hws : ws.all isJSONSpace = true) :
    decodeLoop (if first then .beginValueOrEnd else .beginValue) done
        (encodeElems l ++ ']' :: ws) = some (done ++ l) := by
  induction l generalizing first done with
  | nil => exact absurd rfl hl
  | cons a l ih =>
    cases l with
    | nil =>
      show decodeLoop _ done (quoteJSON a ++ ']' :: ws) = _
      rw [decodeLoop_quoteJSON, decodeLoop.eq_def]
      simp [isJSONSpace, decodeLoop_endTop _ ws hws]
    | cons b l =>
      show decodeLoop _ done (quoteJSON a ++ ',' :: encodeElems (b :: l) ++ ']' :: ws) = _
      rw [List.append_assoc, decodeLoop_quoteJSON]
      rw [decodeLoop.eq_def]
      have h := ih (List.cons_ne_nil b l) false (done ++ [a])
      simp only [Bool.false_eq_true, if_false] at h
      simp [isJSONSpace, h]

/-- The decoder reads back the JSON array encoding of a list of strings,
followed by white space. -/
theorem decodeTop_jsonArray (l : List String) (ws : List Char)
    (hws : ws.all isJSONSpace = true) : decodeTop ((jsonArray l).data ++ ws) = some l := by
  unfold jsonArray
  show decodeTop ('[' :: (encodeElems l ++ [']']) ++ ws) = _
  rw [List.cons_append, decodeTop.eq_def]
  simp only [List.append_assoc, List.singleton_append]
  cases l with
  | nil =>
    have h : decodeLoop .beginValueOrEnd [] (']' :: ws) = some [] := by
      rw [decodeLoop.eq_def]
      simp [isJSONSpace, decodeLoop_endTop _ ws hws]
    simp [isJSONSpace, encodeElems, h]
  | cons a l =>
    have h := decodeLoop_encodeElems (a :: l) (List.cons_ne_nil a l) true [] ws hws
    simp only [if_true, List.nil_append] at h
    simp [isJSONSpace, h]

/-- `json.Unmarshal` decodes the JSON array encoding of a list of strings,
followed by white space, to that list. -/
theorem unmarshal_jsonArray (l : List String) (ws : String)
    (hws : ws.data.all isJSONSpace = true) : Unmarshal (jsonArray l ++ ws) = .ok l := by
  unfold Unmarshal
  rw [String.data_append, decodeTop_jsonArray l ws.data hws]

/-- A character that is neither the double quote, nor the backslash, nor a
control character is not escaped. -/
theorem flatMap_escapeChar_plain (l : List Char)
    (h : ∀ c ∈ l, c ≠ Char.ofNat 34 ∧ c ≠ Char.ofNat 92 ∧ 32 ≤ c.toNat) :
    l.flatMap escapeChar = l := by
  induction l with
  | nil => rfl
  | cons a l ih =>
    have ha := h a (List.mem_cons_self a l)
    have hl : ∀ c ∈ l, c ≠ Char.ofNat 34 ∧ c ≠ Char.ofNat 92 ∧ 32 ≤ c.toNat :=
      fun c hc => h c (List.mem_cons_of_mem a hc)
    have hlt : ¬ a.toNat < 32 := by omega
    rw [List.flatMap_cons, ih hl]
    simp [escapeChar, ha.1, ha.2.1, hlt]

/-- For strings without double quote, backslash and control character, the
elements printed by the template are the elements of the JSON array
encoding. -/
theorem encodeElems_plain (l : List String) (hl : l ≠ [])
    (h : ∀ s ∈ l, ∀ c ∈ s.data, c ≠ Char.ofNat 34 ∧ c ≠ Char.ofNat 92 ∧ 32 ≤ c.toNat) :
    encodeElems l = Char.ofNat 34 :: ((Join l "\",\"").data ++ [Char.ofNat 34]) := by
  induction l with
  | nil => exact absurd rfl hl
  | cons a l ih =>
    have ha : quoteJSON a = Char.ofNat 34 :: (a.data ++ [Char.ofNat 34]) := by
      unfold quoteJSON
      rw [flatMap_escapeChar_plain a.data (h a (List.mem_cons_self a l))]
    cases l with
    | nil =>
      show quoteJSON a = _
      rw [ha]
      rfl
    | cons b l =>
      have hrest := ih (List.cons_ne_nil b l) (fun s hs => h s (List.mem_cons_of_mem a hs))
      show quoteJSON a ++ ',' :: encodeElems (b :: l) = _
      rw [ha, hrest]
      show _ = Char.ofNat 34 :: ((a ++ "\",\"" ++ Join (b :: l) "\",\"").data ++ [Char.ofNat 34])
      rw [String.data_append, String.data_append]
      show _ = Char.ofNat 34 ::
        ((a.data ++ [Char.ofNat 34, ',', Char.ofNat 34] ++ (Join (b :: l) "\",\"").data) ++
          [Char.ofNat 34])
      simp

/-- For strings without double quote, backslash and control character, the text
printed by the template is the JSON array encoding of the list. -/
theorem listTemplate_plain (l : List String)
    (h : ∀ s ∈ l, ∀ c ∈ s.data, c ≠ Char.ofNat 34 ∧ c ≠ Char.ofNat 92 ∧ 32 ≤ c.toNat) :
    listTemplate l = jsonArray l := by
  cases l with
  | nil => rfl
  | cons a l =>
    apply String.ext
    unfold listTemplate jsonArray
    rw [if_pos (List.cons_ne_nil a l), encodeElems_plain (a :: l) (List.cons_ne_nil a l) h]
    simp only [String.data_append]
    show ['['] ++ ([Char.ofNat 34] ++ (Join (a :: l) "\",\"").data ++ [Char.ofNat 34]) ++ [']'] = _
    simp

/-- What `Transform` returns when the decoding succeeds. -/
theorem transform_of_ok (Marshal : List RawDependency → String) (orig : String)
    (l : List String) (h : Unmarshal orig = .ok l) :
    Transform Marshal orig =
      .ok (Marshal (l.map fun importPath =>
        { TargetType := goImportPathTargetType, Target := importPath })) := by
  simp [Transform, h]

/-- What `Transform` returns when the decoding fails. -/
theorem transform_of_error (Marshal : List RawDependency → String) (orig : String)
    (err : String) (h : Unmarshal orig = .error err) :
    Transform Marshal orig = .error err := by
  simp [Transform, h]

/-- C12: for every input that `Transform` accepts, its output is the encoding of
the dependencies built from the decoded import paths, and each of them carries
the target-type tag `go-import-path`, which is the tag under which `init`
registers the Go resolver. -/
theorem lister_tags_have_resolver (Marshal : List RawDependency → String) (orig out : String)
    (h : Transform Marshal orig = .ok out) :
    ∃ importPaths : List String, Unmarshal orig = .ok importPaths ∧
      out = Marshal (importPaths.map fun importPath =>
        { TargetType := goImportPathTargetType, Target := importPath }) ∧
      ∀ d ∈ importPaths.map (fun importPath =>
          ({ TargetType := goImportPathTargetType, Target := importPath } : RawDependency)),
        d.TargetType = "go-import-path" ∧ Registration.resolver d.TargetType ∈ init ∧
        ∀ tag, Registration.resolver tag ∈ init → tag = d.TargetType := by
  cases hu : Unmarshal orig with
  | error err =>
    rw [transform_of_error Marshal orig err hu] at h
    exact Except.noConfusion h
  | ok importPaths =>
    rw [transform_of_ok Marshal orig importPaths hu] at h
    refine ⟨importPaths, rfl, ?_, ?_⟩
    · injection h with h
      exact h.symm
    · intro d hd
      obtain ⟨importPath, _, rfl⟩ := List.mem_map.mp hd
      exact ⟨rfl, by simp [init], by simp [init]⟩

/-- Instance of C12: the output of `go list` for a package that imports `fmt`
and `net/http`. -/
theorem lister_tags_have_resolver_witness :
    Transform sampleMarshal "[\"fmt\",\"net/http\"]\n" =
      .ok "go-import-path fmt\ngo-import-path net/http\n" ∧
    ∃ importPaths : List String, Unmarshal "[\"fmt\",\"net/http\"]\n" = .ok importPaths ∧
      "go-import-path fmt\ngo-import-path net/http\n" =
        sampleMarshal (importPaths.map fun importPath =>
          { TargetType := goImportPathTargetType, Target := importPath }) ∧
      ∀ d ∈ importPaths.map (fun importPath =>
          ({ TargetType := goImportPathTargetType, Target := importPath } : RawDependency)),
        d.TargetType = "go-import-path" ∧ Registration.resolver d.TargetType ∈ init ∧
        ∀ tag, Registration.resolver tag ∈ init → tag = d.TargetType :=
  ⟨by decide,
    lister_tags_have_resolver sampleMarshal "[\"fmt\",\"net/http\"]\n"
      "go-import-path fmt\ngo-import-path net/http\n" (by decide)⟩

/-- C13: for every list `l` of import paths, `Transform` applied to the JSON
array encoding of `l` (followed or not by white space, and more generally
applied to any text that `json.Unmarshal` decodes to `l`) returns the encoding
of a list of dependencies of the length of `l`, whose `i`-th entry has the
target type `go-import-path` and the `i`-th element of `l` as target; the empty
array yields the empty list. -/
theorem transform_maps_import_paths (Marshal : List RawDependency → String) (l : List String) :
    Transform Marshal (jsonArray l) =
      .ok (Marshal (l.map fun importPath =>
        { TargetType := goImportPathTargetType, Target := importPath })) ∧
    (∀ ws : String, ws.data.all isJSONSpace = true →
      Transform Marshal (jsonArray l ++ ws) =
        .ok (Marshal (l.map fun importPath =>
          { TargetType := goImportPathTargetType, Target := importPath }))) ∧
    (∀ orig, Unmarshal orig = .ok l →
      Transform Marshal orig =
        .ok (Marshal (l.map fun importPath =>
          { TargetType := goImportPathTargetType, Target := importPath }))) ∧
    (l.map fun importPath =>
        ({ TargetType := goImportPathTargetType, Target := importPath } : RawDependency)).length
      = l.length ∧
    (∀ i (hi : i < l.length),
      (l.map fun importPath =>
          ({ TargetType := goImportPathTargetType, Target := importPath } : RawDependency))[i]? =
        some { TargetType := "go-import-path", Target := l.get ⟨i, hi⟩ }) ∧
    Transform Marshal "[]" = .ok (Marshal []) := by
  have hws : ∀ ws : String, ws.data.all isJSONSpace = true →
      Transform Marshal (jsonArray l ++ ws) =
        .ok (Marshal (l.map fun importPath =>
          { TargetType := goImportPathTargetType, Target := importPath })) :=
    fun ws h => transform_of_ok Marshal _ l (unmarshal_jsonArray l ws h)
  refine ⟨?_, hws, fun orig h => transform_of_ok Marshal orig l h, by simp, ?_, ?_⟩
  · have h := hws "" rfl
    rw [String.append_empty] at h
    exact h
  · intro i hi
    simp [List.getElem?_eq_getElem hi, goImportPathTargetType]
  · exact transform_of_ok Marshal "[]" [] (by decide)

/-- Instance of C13: an array with a repeated element. -/
theorem transform_maps_import_paths_witness :
    Transform sampleMarshal (jsonArray ["fmt", "net/http", "fmt"]) =
      .ok (sampleMarshal [⟨"go-import-path", "fmt"⟩, ⟨"go-import-path", "net/http"⟩,
        ⟨"go-import-path", "fmt"⟩]) :=
  (transform_maps_import_paths sampleMarshal ["fmt", "net/http", "fmt"]).1

/-- C14: a decode failure in `Transform` is reported as an error.  For every raw
output on which `json.Unmarshal` into a `[]string` fails, `Transform` returns
that error and no output; for every raw output that it decodes, `Transform`
returns output and no error.  So `Transform` fails exactly when the decoding
fails. -/
theorem decode_failure_is_error (Marshal : List RawDependency → String) (orig : String) :
    (∀ err, Unmarshal orig = .error err → Transform Marshal orig = .error err) ∧
    (decodeTop orig.data = none → ∃ err, Transform Marshal orig = .error err) ∧
    (∀ importPaths, decodeTop orig.data = some importPaths →
      Transform Marshal orig =
        .ok (Marshal (importPaths.map fun importPath =>
          { TargetType := goImportPathTargetType, Target := importPath }))) ∧
    ((∃ err, Transform Marshal orig = .error err) ↔ ∃ err, Unmarshal orig = .error err) := by
  refine ⟨fun err h => transform_of_error Marshal orig err h, ?_, ?_, ?_⟩
  · intro h
    exact ⟨"json: cannot unmarshal into Go value of type []string",
      transform_of_error Marshal orig _ (by simp [Unmarshal, h])⟩
  · intro importPaths h
    exact transform_of_ok Marshal orig importPaths (by simp [Unmarshal, h])
  · constructor
    · rintro ⟨err, h⟩
      cases hu : Unmarshal orig with
      | error e => exact ⟨e, rfl⟩
      | ok importPaths =>
        rw [transform_of_ok Marshal orig importPaths hu] at h
        exact Except.noConfusion h
    · rintro ⟨err, h⟩
      exact ⟨err, transform_of_error Marshal orig err h⟩

/-- Instance of C14: an array of numbers and a truncated array are errors, an
array of strings is not. -/
theorem decode_failure_is_error_witness :
    decodeTop "[1,2]".data = none ∧ decodeTop "[\"fmt\"".data = none ∧
    (∃ err, Transform sampleMarshal "[1,2]" = .error err) ∧
    Transform sampleMarshal "[\"fmt\"]" = .ok (sampleMarshal [⟨"go-import-path", "fmt"⟩]) :=
  ⟨by decide, by decide,
    (decode_failure_is_error sampleMarshal "[1,2]").2.1 (by decide),
    (decode_failure_is_error sampleMarshal "[\"fmt\"]").2.2.1 ["fmt"] (by decide)⟩

/-- C18, as stated, fails: the list with the one element `a<TAB>b` contains no
double quote and no backslash, the template prints it as it is, and a control
character inside a JSON string literal is a syntax error, so `Transform` rejects
the text. -/
theorem template_output_rejected :
    (∀ c ∈ "a\tb".data, c ≠ Char.ofNat 34 ∧ c ≠ Char.ofNat 92) ∧
    listTemplate ["a\tb"] = "[\"a\tb\"]" ∧
    Unmarshal (listTemplate ["a\tb"]) =
      .error "json: cannot unmarshal into Go value of type []string" ∧
    Transform sampleMarshal (listTemplate ["a\tb"]) =
      .error "json: cannot unmarshal into Go value of type []string" := by
  decide

/-- C18, amended: for every list `l` of import paths that contain no double
quote, no backslash and no control character (below U+0020), the text that the
template of the command prints for a package whose `Imports` are `l` (`[]` when
`l` is empty, otherwise the elements quoted and separated by commas, in
brackets), followed or not by the newline that `go list` adds, is accepted by
`Transform` and decodes to exactly one dependency per element of `l`, in the
same order. -/
theorem template_output_accepted (Marshal : List RawDependency → String) (l : List String)
    (h : ∀ s ∈ l, ∀ c ∈ s.data, c ≠ Char.ofNat 34 ∧ c ≠ Char.ofNat 92 ∧ 32 ≤ c.toNat) :
    Unmarshal (listTemplate l) = .ok l ∧
    Transform Marshal (listTemplate l) =
      .ok (Marshal (l.map fun importPath =>
        { TargetType := goImportPathTargetType, Target := importPath })) ∧
    Transform Marshal (listTemplate l ++ "\n") =
      .ok (Marshal (l.map fun importPath =>
        { TargetType := goImportPathTargetType, Target := importPath })) ∧
    (l.map fun importPath =>
        ({ TargetType := goImportPathTargetType, Target := importPath } : RawDependency)).length
      = l.length ∧
    (l = [] → listTemplate l = "[]") := by
  have h0 : Unmarshal (listTemplate l) = .ok l := by
    have := unmarshal_jsonArray l "" rfl
    rw [String.append_empty] at this
    rw [listTemplate_plain l h]
    exact this
  have h1 : Unmarshal (listTemplate l ++ "\n") = .ok l := by
    rw [listTemplate_plain l h]
    exact unmarshal_jsonArray l "\n" (by decide)
  refine ⟨h0, transform_of_ok Marshal _ l h0, transform_of_ok Marshal _ l h1, by simp, ?_⟩
  intro hl
  subst hl
  rfl

/-- Instance of C18: a package that imports `fmt` and `net/http`. -/
theorem template_output_accepted_witness :
    listTemplate ["fmt", "net/http"] = "[\"fmt\",\"net/http\"]" ∧
    Transform sampleMarshal (listTemplate ["fmt", "net/http"] ++ "\n") =
      .ok (sampleMarshal [⟨"go-import-path", "fmt"⟩, ⟨"go-import-path", "net/http"⟩]) :=
  ⟨by decide,
    (template_output_accepted sampleMarshal ["fmt", "net/http"] (by decide)).2.2.1⟩

/-- On a list of events that keeps the discipline of the lock, the lock is not
held at any call of the package index. -/
theorem lockDiscipline_get (es : List Event) :
    ∀ (held : Bool), lockDiscipline held es = true →
      ∀ pre key post, es = pre ++ Event.get key :: post → heldAfter held pre = false := by
  induction es with
  | nil =>
    intro held _ pre key post h
    cases pre <;> simp at h
  | cons e es ih =>
    intro held hd pre key post h
    cases pre with
    | nil =>
      simp only [List.nil_append, List.cons.injEq] at h
      obtain ⟨he, _⟩ := h
      subst he
      cases held
      · rfl
      · simp [lockDiscipline] at hd
    | cons e2 pre =>
      simp only [List.cons_append, List.cons.injEq] at h
      obtain ⟨he, hes⟩ := h
      subst he
      cases e <;> cases held <;> simp [lockDiscipline] at hd <;>
        simp only [heldAfter] <;> exact ih _ hd pre key post hes

/-- On a list of events that keeps the discipline of the lock, the lock is held
at every access to the cache. -/
theorem lockDiscipline_cache (es : List Event) :
    ∀ (held : Bool), lockDiscipline held es = true →
      ∀ pre e post, es = pre ++ e :: post →
        (∃ key, e = Event.cacheRead key ∨ e = Event.cacheWrite key) →
        heldAfter held pre = true := by
  induction es with
  | nil =>
    intro held _ pre e post h
    cases pre <;> simp at h
  | cons e0 es ih =>
    intro held hd pre e post h hacc
    cases pre with
    | nil =>
      simp only [List.nil_append, List.cons.injEq] at h
      obtain ⟨he, _⟩ := h
      subst he
      obtain ⟨key, hk | hk⟩ := hacc <;> subst hk <;> cases held <;>
        simp [lockDiscipline] at hd <;> rfl
    | cons e2 pre =>
      simp only [List.cons_append, List.cons.injEq] at h
      obtain ⟨he, hes⟩ := h
      subst he
      cases e0 <;> cases held <;> simp [lockDiscipline] at hd <;>
        simp only [heldAfter] <;> exact ih _ hd pre e post hes hacc

/-- C15: the lock of the resolution cache is held for the lookup and for the
insert, and never across the call of the package index.  In every execution of
`resolveGoImportDep` the events keep the discipline of the lock; at each call
of the package index (the calls are those recorded by the embedding of the
resolver) the caller does not hold `resolveCacheMu`; at each read and write of
the cache it does; and it has released the lock when it returns. -/
theorem lock_not_held_across_lookup (env : Env) (Get : Index) (v : goVersion) (p : String)
    (c : Repository) :
    lockDiscipline false (resolveEvents Get v p c) = true ∧
    getsOf (resolveEvents Get v p c) = (resolveGoImportDep env Get v p c).lookups ∧
    (∀ pre key post, resolveEvents Get v p c = pre ++ Event.get key :: post →
      heldAfter false pre = false) ∧
    (∀ pre e post, resolveEvents Get v p c = pre ++ e :: post →
      (∃ key, e = Event.cacheRead key ∨ e = Event.cacheWrite key) →
      heldAfter false pre = true) ∧
    heldAfter false (resolveEvents Get v p c) = false := by
  have hd : lockDiscipline false (resolveEvents Get v p c) = true ∧
      getsOf (resolveEvents Get v p c) = (resolveGoImportDep env Get v p c).lookups ∧
      heldAfter false (resolveEvents Get v p c) = false := by
    unfold resolveEvents
    cases hc : v.resolveCache p with
    | some t =>
      rw [resolve_of_hit env Get v p c t hc]
      exact ⟨rfl, rfl, rfl⟩
    | none =>
      by_cases hpre : HasPrefix p (goConfig c).BaseImportPath = true
      · rw [resolve_of_local env Get v p c hc hpre]
        simp only [hpre, if_true]
        cases Rel (goConfig c).BaseImportPath p <;> exact ⟨rfl, rfl, rfl⟩
      · have hpre2 : HasPrefix p (goConfig c).BaseImportPath = false := by simpa using hpre
        rw [resolve_of_external env Get v p c hc hpre2]
        simp only [hpre2, Bool.false_eq_true, if_false]
        cases Get p with
        | error e => exact ⟨rfl, rfl, rfl⟩
        | ok dir =>
          simp only
          cases Rel dir.ProjectRoot dir.ImportPath <;> exact ⟨rfl, rfl, rfl⟩
  exact ⟨hd.1, hd.2.1, lockDiscipline_get _ false hd.1, lockDiscipline_cache _ false hd.1, hd.2.2⟩

/-- Instance of C15: the events of the external resolution of
`example.org/lib`. -/
theorem lock_not_held_across_lookup_witness :
    resolveEvents stubIndex go12 "example.org/lib" appUtil =
      [.lock, .cacheRead "example.org/lib", .unlock, .get "example.org/lib",
        .lock, .cacheWrite "example.org/lib", .unlock] ∧
    heldAfter false [.lock, .cacheRead "example.org/lib", .unlock] = false :=
  ⟨by decide,
    (lock_not_held_across_lookup specEnv stubIndex go12 "example.org/lib" appUtil).2.2.1
      [.lock, .cacheRead "example.org/lib", .unlock] "example.org/lib"
      [.lock, .cacheWrite "example.org/lib", .unlock] (by decide)⟩

end Golang

namespace Scan

/-- The inner loop adds the language to the slices of the extensions it visits
and to no other. -/
theorem mem_addExtensions (lang : Language) (exts : List String) :
    ∀ (m : String → List Language) (l : Language) (e : String),
      l ∈ addExtensions lang exts m e ↔ l ∈ m e ∨ (l = lang ∧ e ∈ exts) := by
  induction exts with
  | nil => intro m l e; simp [addExtensions]
  | cons ext exts ih =>
    intro m l e
    rw [addExtensions, ih]
    by_cases he : e = ext
    · subst he
      simp only [if_true, List.mem_append, List.mem_singleton, List.mem_cons, true_or, and_true]
      tauto
    · simp [he]

/-- The slices of `LanguagesByExtension` after the loop. -/
theorem mem_parseLoop (t : List (String × Language)) :
    ∀ (i : Nat) (st : Indexes) (l : Language) (e : String),
      l ∈ (parseLoop t i st).LanguagesByExtension e ↔
        l ∈ st.LanguagesByExtension e ∨
          ∃ kv ∈ t, l = named kv ∧ (e = (named kv).PrimaryExtension ∨ e ∈ (named kv).Extensions) := by
  induction t with
  | nil => intro i st l e; simp [parseLoop]
  | cons kv t ih =>
    intro i st l e
    obtain ⟨name, lang⟩ := kv
    rw [parseLoop, ih, mem_addExtensions]
    constructor
    · rintro ((h | ⟨hl, he⟩) | ⟨kv, hkv, hl, he⟩)
      · exact Or.inl h
      · refine Or.inr ⟨(name, lang), List.mem_cons_self _ _, hl, ?_⟩
        simpa [named] using he
      · exact Or.inr ⟨kv, List.mem_cons_of_mem _ hkv, hl, he⟩
    · rintro (h | ⟨kv, hkv, hl, he⟩)
      · exact Or.inl (Or.inl h)
      · rcases List.mem_cons.mp hkv with rfl | hkv
        · refine Or.inl (Or.inr ⟨hl, ?_⟩)
          simpa [named] using he
        · exact Or.inr ⟨kv, hkv, hl, he⟩

/-- The slice `Languages` after the loop, when it starts at the first `nil`
slot: the slots of the table entries are filled in order. -/
theorem languages_parseLoop (t : List (String × Language)) :
    ∀ (pre post : List (Option Language)) (m : String → List Language),
      (parseLoop t pre.length
          { Languages := pre ++ (List.replicate t.length none ++ post),
            LanguagesByExtension := m }).Languages =
        pre ++ (t.map (fun kv => some (named kv)) ++ post) := by
  induction t with
  | nil => intro pre post m; simp [parseLoop]
  | cons kv t ih =>
    intro pre post m
    obtain ⟨name, lang⟩ := kv
    rw [parseLoop]
    simp only [List.length_cons, List.replicate_succ, List.cons_append, List.map_cons]
    have hset : (pre ++ none :: (List.replicate t.length none ++ post)).set pre.length
        (some ({ lang with Name := name } : Language)) =
        (pre ++ [some ({ lang with Name := name } : Language)]) ++
          (List.replicate t.length none ++ post) := by
      induction pre with
      | nil => rfl
      | cons a pre ihp => simp only [List.cons_append, List.length_cons, List.set_cons_succ, ihp]
    rw [hset]
    have hlen : pre.length + 1 = (pre ++ [some ({ lang with Name := name } : Language)]).length := by
      simp
    rw [hlen, ih]
    simp [named]

/-- C19: after `mustParseLanguages` has built its indexes from a table,
`Languages` has one entry per entry of the table, in the order of the loop, none
of them `nil`, and the `Name` of each is its key; for every language of the
table and every extension that is its primary extension or one of its listed
extensions, the slice of `LanguagesByExtension` for that extension contains the
language; and every language in the slice of an extension is a language of the
table that has the extension as its primary extension or among its listed
extensions. -/
theorem language_indexes (t : List (String × Language)) :
    (mustParseLanguages t).Languages = t.map (fun kv => some (named kv)) ∧
    (mustParseLanguages t).Languages.length = t.length ∧
    (∀ i (hi : i < t.length), ∃ l, (mustParseLanguages t).Languages[i]? = some (some l) ∧
      l.Name = (t.get ⟨i, hi⟩).1) ∧
    (∀ kv ∈ t, ∀ e, e = kv.2.PrimaryExtension ∨ e ∈ kv.2.Extensions →
      named kv ∈ (mustParseLanguages t).LanguagesByExtension e) ∧
    (∀ e, ∀ l ∈ (mustParseLanguages t).LanguagesByExtension e,
      (e = l.PrimaryExtension ∨ e ∈ l.Extensions) ∧ ∃ kv ∈ t, l = named kv) := by
  have hlangs : (mustParseLanguages t).Languages = t.map (fun kv => some (named kv)) := by
    have h := languages_parseLoop t [] [] (fun _ => [])
    simpa [mustParseLanguages] using h
  refine ⟨hlangs, ?_, ?_, ?_, ?_⟩
  · rw [hlangs, List.length_map]
  · intro i hi
    refine ⟨named (t.get ⟨i, hi⟩), ?_, rfl⟩
    rw [hlangs]
    simp [List.getElem?_eq_getElem hi]
  · intro kv hkv e he
    unfold mustParseLanguages
    rw [mem_parseLoop]
    exact Or.inr ⟨kv, hkv, rfl, he⟩
  · intro e l hl
    unfold mustParseLanguages at hl
    rw [mem_parseLoop] at hl
    rcases hl with hl | ⟨kv, hkv, rfl, he⟩
    · simp at hl
    · exact ⟨he, kv, hkv, rfl⟩

/-- Instance of C19: in the table of `C` and `C++`, the slice of the extension
`.h` holds both languages, each under its name. -/
theorem language_indexes_witness :
    (mustParseLanguages sampleTable).Languages =
      [some ⟨"C", "programming", ".c", [".h"]⟩,
       some ⟨"C++", "programming", ".cpp", [".h", ".hpp"]⟩] ∧
    (mustParseLanguages sampleTable).LanguagesByExtension ".h" =
      [⟨"C", "programming", ".c", [".h"]⟩, ⟨"C++", "programming", ".cpp", [".h", ".hpp"]⟩] ∧
    named ("C", ⟨"", "programming", ".c", [".h"]⟩) ∈
      (mustParseLanguages sampleTable).LanguagesByExtension ".h" :=
  ⟨by decide, by decide,
    (language_indexes sampleTable).2.2.2.1 ("C", ⟨"", "programming", ".c", [".h"]⟩) (by decide)
      ".h" (by decide)⟩

end Scan
